import Mathlib

/-!
Verification of the p2p-signalling-server room/relay core (`src/worker.js`,
class `SignalHub`).  JavaScript strings are modelled as `List Char` (code-unit
sequences), JS `Map`s as association lists with first-match lookup, JS `Set`s
of member ids as duplicate-free lists in insertion order.  `Math.random`-driven
suffixes are modelled by an explicit stream `rand : Nat → Nat` (the i-th call
of `randomSuffix`), `Date.now()` by a parameter `now`.  A client's WebSocket is
identified with the client id it was registered under at connection-accept
time (the code establishes this bijection in `fetch` and never changes it), so
an emitted message is addressed by client id.
-/

namespace SignalHub

/-- JS string, as a sequence of characters. -/
abbrev JStr := List Char

/-- ASCII lower-casing of one character, as used by `toLowerCase` on the
name alphabet that matters here. -/
def jsLowerChar (c : Char) : Char :=
  if 'A' ≤ c ∧ c ≤ 'Z' then Char.ofNat (c.toNat + 32) else c

/-- `String.prototype.toLowerCase`. -/
def jsToLower (s : JStr) : JStr := s.map jsLowerChar

/-- Decimal digit character (argument is always `< 10` at use sites). -/
def digitChar : Nat → Char
  | 0 => '0' | 1 => '1' | 2 => '2' | 3 => '3' | 4 => '4'
  | 5 => '5' | 6 => '6' | 7 => '7' | 8 => '8' | _ => '9'

/-- Fueled decimal rendering (structural recursion so that it evaluates by
kernel reduction; the fuel is always sufficient at use sites). -/
def natDecAux : Nat → Nat → JStr
  | 0, _ => []
  | fuel + 1, n =>
    if n < 10 then [digitChar n] else natDecAux fuel (n / 10) ++ [digitChar (n % 10)]

/-- Decimal rendering of a natural number, as a JS template literal renders
an integer. -/
def natDec (n : Nat) : JStr := natDecAux (n + 1) n

theorem natDecAux_fuel : ∀ (n fuel1 fuel2 : Nat), n < fuel1 → n < fuel2 →
    natDecAux fuel1 n = natDecAux fuel2 n := by
  intro n
  induction n using Nat.strong_induction_on with
  | _ n ih =>
    intro fuel1 fuel2 h1 h2
    match fuel1, fuel2 with
    | f1 + 1, f2 + 1 =>
      simp only [natDecAux]
      split
      · rfl
      · next h10 =>
        have hdiv : n / 10 < n := Nat.div_lt_self (by omega) (by omega)
        rw [ih (n / 10) hdiv f1 f2 (by omega) (by omega)]

theorem natDec_eq (n : Nat) :
    natDec n = if n < 10 then [digitChar n]
      else natDec (n / 10) ++ [digitChar (n % 10)] := by
  show natDecAux (n + 1) n = _
  simp only [natDecAux]
  split
  · rfl
  · next h10 =>
    have hdiv : n / 10 < n := Nat.div_lt_self (by omega) (by omega)
    rw [natDecAux_fuel (n / 10) n (n / 10 + 1) hdiv (Nat.lt_succ_self _)]
    rfl

/-- Value of a digit list, used to invert `natDec`. -/
def decVal (l : JStr) : Nat :=
  l.foldl (fun a c => a * 10 + (c.toNat - 48)) 0

theorem decVal_append_singleton (l : JStr) (c : Char) :
    decVal (l ++ [c]) = decVal l * 10 + (c.toNat - 48) := by
  simp [decVal, List.foldl_append]

theorem digitChar_toNat {d : Nat} (h : d < 10) : (digitChar d).toNat = 48 + d := by
  interval_cases d <;> rfl

theorem decVal_natDec (n : Nat) : decVal (natDec n) = n := by
  induction n using Nat.strong_induction_on with
  | _ n ih =>
    rw [natDec_eq]
    split
    · next h =>
      simp [decVal, digitChar_toNat h]
    · next h =>
      rw [decVal_append_singleton, ih (n / 10) (Nat.div_lt_self (by omega) (by omega)),
        digitChar_toNat (Nat.mod_lt _ (by omega))]
      omega

theorem natDec_injective : Function.Injective natDec := by
  intro a b h
  have := decVal_natDec a
  rw [h, decVal_natDec] at this
  omega

theorem natDec_ne_nil (n : Nat) : natDec n ≠ [] := by
  rw [natDec_eq]; split <;> simp

theorem jsLowerChar_digitChar (d : Nat) : jsLowerChar (digitChar d) = digitChar d := by
  have h10 : ∀ c ∈ ['0','1','2','3','4','5','6','7','8','9'], jsLowerChar c = c := by decide
  unfold digitChar
  split <;> apply h10 <;> simp

theorem jsToLower_natDec (n : Nat) : jsToLower (natDec n) = natDec n := by
  induction n using Nat.strong_induction_on with
  | _ n ih =>
    rw [natDec_eq]
    split
    · simp [jsToLower, jsLowerChar_digitChar]
    · next h =>
      have := ih (n / 10) (Nat.div_lt_self (by omega) (by omega))
      simp only [jsToLower, List.map_append, List.map_cons, List.map_nil] at this ⊢
      rw [this, jsLowerChar_digitChar]

theorem jsToLower_append (a b : JStr) : jsToLower (a ++ b) = jsToLower a ++ jsToLower b := by
  simp [jsToLower]

theorem natDec_length_le {n k : Nat} (h : n < 10 ^ k) (hk : 1 ≤ k) :
    (natDec n).length ≤ k := by
  induction k generalizing n with
  | zero => omega
  | succ k ih =>
    rw [natDec_eq]
    split
    · simp
    · next hn =>
      have hk1 : 1 ≤ k := by
        by_contra hc
        interval_cases k <;> omega
      have : n / 10 < 10 ^ k := by
        rw [Nat.div_lt_iff_lt_mul (by omega)]
        calc n < 10 ^ (k + 1) := h
        _ = 10 ^ k * 10 := by ring
      simpa using Nat.add_le_add_right (ih this hk1) 1

/-! ## JS values and the pure helpers of `worker.js` -/

/-- A JSON-ish JavaScript value, as far as the protocol inspects one.
Objects are field lists (presence of a key models `hasOwnProperty`);
numbers are modelled as integers (no float behaviour is relevant here). -/
inductive JsVal where
  | vstr (s : JStr)
  | vnum (n : Int)
  | vbool (b : Bool)
  | vnull
  | vundef
  | vobj (fields : List (JStr × JsVal))

/-- Decimal rendering of an integer (JS template-literal / `String(...)`). -/
def intDec (n : Int) : JStr :=
  if n < 0 then '-' :: natDec n.natAbs else natDec n.natAbs

/-- JS `String(v)` coercion. -/
def jsValToStr : JsVal → JStr
  | .vstr s => s
  | .vnum n => intDec n
  | .vbool true => "true".data
  | .vbool false => "false".data
  | .vnull => "null".data
  | .vundef => "undefined".data
  | .vobj _ => "[object Object]".data

/-- Field access `v[k]` (missing key or non-object access yields `undefined`). -/
def getField (v : JsVal) (k : JStr) : JsVal :=
  match v with
  | .vobj fields =>
    match fields.lookup k with
    | some x => x
    | none => .vundef
  | _ => JsVal.vundef

/-- `Object.prototype.hasOwnProperty.call(v, k)`. -/
def hasField (v : JsVal) (k : JStr) : Bool :=
  match v with
  | .vobj fields => (fields.lookup k).isSome
  | _ => false

/-- `v ?? null`. -/
def coalNull (v : JsVal) : JsVal :=
  match v with
  | .vundef => .vnull
  | x => x

/-- JS truthiness of a nullable string (`null` and `""` are falsy). -/
def otruthy : Option JStr → Bool
  | none => false
  | some s => !s.isEmpty

/-- Rendering of a nullable string inside a template literal
(`null` prints as `"null"`). -/
def ostr : Option JStr → JStr
  | none => "null".data
  | some s => s

/-- The character class of the JS `\s` regex escape (whitespace). -/
def isJsSpace (c : Char) : Bool :=
  decide (c = ' ' ∨ c = '\t' ∨ c = '\n' ∨ c.toNat = 11 ∨ c.toNat = 12 ∨ c = '\r' ∨
    c.toNat = 0xA0 ∨ c.toNat = 0x1680 ∨ (0x2000 ≤ c.toNat ∧ c.toNat ≤ 0x200A) ∨
    c.toNat = 0x2028 ∨ c.toNat = 0x2029 ∨ c.toNat = 0x202F ∨ c.toNat = 0x205F ∨
    c.toNat = 0x3000 ∨ c.toNat = 0xFEFF)

/-- State machine for `.replace(/\s+/g, " ")`: the flag records whether we
are inside a whitespace run that already produced its single space. -/
def collapseWsAux : Bool → JStr → JStr
  | _, [] => []
  | inRun, c :: rest =>
    if isJsSpace c then
      if inRun then collapseWsAux true rest
      else ' ' :: collapseWsAux true rest
    else c :: collapseWsAux false rest

/-- `.replace(/\s+/g, " ")`: each maximal whitespace run becomes one space. -/
def collapseWs (l : JStr) : JStr := collapseWsAux false l

/-- `.trim()`. -/
def jsTrim (l : JStr) : JStr :=
  ((l.dropWhile isJsSpace).reverse.dropWhile isJsSpace).reverse

/-- `normalizeDisplayName` on an already-coerced string: collapse whitespace,
trim, truncate to 24, default `"Player"`. -/
def normalizeDisplayNameStr (s : JStr) : JStr :=
  let cleaned := (jsTrim (collapseWs s)).take 24
  if cleaned = [] then "Player".data else cleaned

/-- `normalizeDisplayName(value)`: `String(value ?? "")` then normalization. -/
def normalizeDisplayName (v : JsVal) : JStr :=
  normalizeDisplayNameStr
    (match v with
     | .vnull => []
     | .vundef => []
     | x => jsValToStr x)

/-- `normalizePresenceStatus(value)`: `"playing"` only on strict equality. -/
def normalizePresenceStatus (v : JsVal) : JStr :=
  match v with
  | .vstr s => if s = "playing".data then "playing".data else "lobby".data
  | _ => "lobby".data

/-- The character class `[a-zA-Z0-9_-]` of `validChannelName`. -/
def isWordChar (c : Char) : Bool :=
  decide (('a' ≤ c ∧ c ≤ 'z') ∨ ('A' ≤ c ∧ c ≤ 'Z') ∨ ('0' ≤ c ∧ c ≤ '9') ∨
    c = '_' ∨ c = '-')

/-- `validChannelName` on a string: nonempty, at most 64 chars, word chars. -/
def validChannelNameStr (s : JStr) : Bool :=
  !s.isEmpty && decide (s.length ≤ 64) && s.all isWordChar

/-- `validChannelName(value)` (non-strings are invalid). -/
def validChannelNameV (v : JsVal) : Bool :=
  match v with
  | .vstr s => validChannelNameStr s
  | _ => false

/-- `roomKey(app, room)`. -/
def roomKey (app room : JStr) : JStr := app ++ "::".data ++ room

/-! ## Registries: JS `Map` as association list, member `Set` as list -/

/-- `Map.get`. -/
def mapGet {α : Type} : List (JStr × α) → JStr → Option α
  | [], _ => none
  | (k', v) :: t, k => if k' = k then some v else mapGet t k

/-- `Map.set` (replace the entry in place, or append a new one). -/
def mapSet {α : Type} : List (JStr × α) → JStr → α → List (JStr × α)
  | [], k, v => [(k, v)]
  | (k', v') :: t, k, v => if k' = k then (k, v) :: t else (k', v') :: mapSet t k v

/-- `Map.delete` (a `Map` holds each key at most once, so dropping every
entry with the key is the same operation). -/
def mapDel {α : Type} : List (JStr × α) → JStr → List (JStr × α)
  | [], _ => []
  | (k', v') :: t, k => if k' = k then mapDel t k else (k', v') :: mapDel t k

/-- `Set.add` on a member list (no-op when present, else append). -/
def setAdd (l : List JStr) (x : JStr) : List JStr :=
  if x ∈ l then l else l ++ [x]

/-- `Set.delete` on a member list. -/
def setDel (l : List JStr) (x : JStr) : List JStr :=
  l.filter (fun m => decide (m ≠ x))

/-- Presence metadata `{name, status}` as produced by `normalizeMeta` /
`handleSetMeta`. -/
structure Meta where
  name : JStr
  status : JStr
deriving DecidableEq

/-- `normalizeMeta(input)`. -/
def normalizeMeta (input : JsVal) : Meta :=
  let m := match input with
    | .vobj fields => JsVal.vobj fields
    | _ => JsVal.vobj []
  { name := normalizeDisplayName (getField m "name".data)
    status := normalizePresenceStatus (getField m "status".data) }

/-- A client-registry entry: `{id, ws, app, room, meta}`; the `ws` handle is
identified with the id the socket was registered under. -/
structure Client where
  id : JStr
  app : Option JStr
  room : Option JStr
  meta : Option Meta
deriving DecidableEq

/-- The `SignalHub` mutable state: `this.rooms` and `this.clients`. -/
structure Hub where
  rooms : List (JStr × List JStr)
  clients : List (JStr × Client)
deriving DecidableEq

/-- Messages the server pushes to sockets (`wsJson` calls), addressed by the
client id owning the socket. -/
inductive OutMsg where
  | welcome (dest id app room : JStr) (peers : List JStr)
      (peerMeta : List (JStr × Option Meta)) (meta : Meta) (maxRoomSize : Nat)
  | peerJoined (dest id : JStr) (meta : Meta)
  | peerLeft (dest id : JStr)
  | signalOut (dest fromId : JStr) (signal : JsVal)
  | directOut (dest fromId : JStr) (payload : JsVal)
  | broadcastOut (dest fromId : JStr) (payload : JsVal)
  | metaUpdated (dest id : JStr) (meta : Option Meta)
  | peerMetaOut (dest id : JStr) (meta : Option Meta)
  | pongOut (dest : JStr) (now : Nat)
  | errSimple (dest : JStr) (reason : JStr)
  | errRoomFull (dest : JStr) (maxRoomSize : Nat)
  | errWithTarget (dest reason target : JStr)
  | errUnknownType (dest : JStr) (received : JsVal)

/-! ## Name allocator (`roomUsedNames` / `uniqueName`) -/

/-- The loop body of `roomUsedNames`: walk the member ids, skipping the
(truthy) `ignoreId`, collecting each present member's nonempty display name
lower-cased into the accumulated set. -/
def collectUsed (clients : List (JStr × Client)) (ignoreId : Option JStr) :
    List JStr → List JStr → List JStr
  | used, [] => used
  | used, memberId :: rest =>
    if otruthy ignoreId ∧ ignoreId = some memberId then
      collectUsed clients ignoreId used rest
    else
      match mapGet clients memberId with
      | none => collectUsed clients ignoreId used rest
      | some member =>
        match member.meta with
        | none => collectUsed clients ignoreId used rest
        | some m =>
          if m.name = [] then collectUsed clients ignoreId used rest
          else
            collectUsed clients ignoreId
              (if jsToLower m.name ∈ used then used else used ++ [jsToLower m.name])
              rest

/-- `roomUsedNames(key, ignoreId)`. -/
def roomUsedNames (h : Hub) (key : JStr) (ignoreId : Option JStr) : List JStr :=
  match mapGet h.rooms key with
  | none => []
  | some members => collectUsed h.clients ignoreId [] members

/-- The random-suffix loop of `uniqueName`: up to `fuel` attempts, the i-th
drawing `rand i` from `randomSuffix()`. -/
def tryRandomFrom (rand : Nat → Nat) (base : JStr) (used : List JStr) :
    Nat → Nat → Option JStr
  | 0, _ => none
  | fuel + 1, i =>
    let candidate := base ++ natDec (rand i)
    if jsToLower candidate ∈ used then tryRandomFrom rand base used fuel (i + 1)
    else some candidate

/-- The sequential-suffix loop of `uniqueName` (`n` from its current value
while `n < 10000`). -/
def trySeqFrom (base : JStr) (used : List JStr) (n : Nat) : Option JStr :=
  if _h : n < 10000 then
    let candidate := base ++ natDec n
    if jsToLower candidate ∈ used then trySeqFrom base used (n + 1)
    else some candidate
  else none
  termination_by 10000 - n

/-- `uniqueName` once the base has been normalized and the used-name set
collected: base if fresh, else 500 random attempts, else sequential suffixes
from 2, else `Date.now() % 100000` (unchecked). -/
def uniqueNameFrom (rand : Nat → Nat) (now : Nat) (base : JStr)
    (used : List JStr) : JStr :=
  if jsToLower base ∈ used then
    match tryRandomFrom rand base used 500 0 with
    | some c => c
    | none =>
      match trySeqFrom base used 2 with
      | some c => c
      | none => base ++ natDec (now % 100000)
  else base

/-- `uniqueName(baseName, key, ignoreId)`. -/
def uniqueName (h : Hub) (rand : Nat → Nat) (now : Nat) (baseName key : JStr)
    (ignoreId : Option JStr) : JStr :=
  uniqueNameFrom rand now (normalizeDisplayNameStr baseName)
    (roomUsedNames h key ignoreId)

/-! ## Teardown, presence relay, message handlers -/

/-- `leaveRoom(clientId)`: returns the new hub state and the emitted
`peer-left` notifications. -/
def leaveRoom (h : Hub) (clientId : JStr) : Hub × List OutMsg :=
  match mapGet h.clients clientId with
  | none => (h, [])
  | some client =>
    let roomStep : List (JStr × List JStr) × List OutMsg :=
      if otruthy client.app ∧ otruthy client.room then
        let key := roomKey (ostr client.app) (ostr client.room)
        match mapGet h.rooms key with
        | none => (h.rooms, [])
        | some members =>
          let members2 := setDel members clientId
          let notes := members2.filterMap (fun memberId =>
            (mapGet h.clients memberId).map (fun member =>
              OutMsg.peerLeft member.id clientId))
          (if members2.isEmpty then mapDel h.rooms key
           else mapSet h.rooms key members2, notes)
      else (h.rooms, [])
    (⟨roomStep.1, mapDel h.clients clientId⟩, roomStep.2)

/-- `relayPeerMeta(client, includeSelfAck)`. -/
def relayPeerMeta (h : Hub) (c : Client) (includeSelfAck : Bool) : List OutMsg :=
  if otruthy c.app ∧ otruthy c.room then
    match mapGet h.rooms (roomKey (ostr c.app) (ostr c.room)) with
    | none => []
    | some members =>
      (if includeSelfAck then [OutMsg.metaUpdated c.id c.id c.meta] else []) ++
      members.filterMap (fun peerId =>
        if peerId = c.id then none
        else (mapGet h.clients peerId).map (fun peer =>
          OutMsg.peerMetaOut peer.id c.id c.meta))
  else []

/-- `handleSetMeta(client, patch)`; `wsId` is the registry key under which the
(in-place mutated) client record lives. -/
def handleSetMeta (rand : Nat → Nat) (now : Nat) (h : Hub) (wsId : JStr)
    (c : Client) (patch : JsVal) : Hub × List OutMsg :=
  match patch with
  | .vobj fields =>
    let prevName := (c.meta.map Meta.name).getD "Player".data
    let prevStatus := (c.meta.map Meta.status).getD "lobby".data
    let name2 :=
      if ((fields.lookup "name".data).isSome : Bool) then
        uniqueName h rand now (normalizeDisplayName (getField patch "name".data))
          (roomKey (ostr c.app) (ostr c.room)) (some c.id)
      else prevName
    let status2 :=
      if ((fields.lookup "status".data).isSome : Bool) then
        normalizePresenceStatus (getField patch "status".data)
      else prevStatus
    let c2 : Client := { c with meta := some ⟨name2, status2⟩ }
    let h2 : Hub := ⟨h.rooms, mapSet h.clients wsId c2⟩
    (h2, relayPeerMeta h2 c2 true)
  | _ => (h, [OutMsg.errSimple c.id "invalid-meta-patch".data])

/-- Does `msg.type` strictly equal the string `t`? -/
def isType (msg : JsVal) (t : JStr) : Bool :=
  match getField msg "type".data with
  | .vstr s => decide (s = t)
  | _ => false

/-- `handleJoinedClientMessage(client, msg)`. -/
def handleJoinedClientMessage (rand : Nat → Nat) (now : Nat) (h : Hub)
    (wsId : JStr) (c : Client) (msg : JsVal) : Hub × List OutMsg :=
  if isType msg "signal".data then
    match getField msg "to".data with
    | .vstr targetId =>
      match mapGet h.clients targetId with
      | none => (h, [OutMsg.errWithTarget c.id "peer-not-found".data targetId])
      | some target =>
        if target.app = c.app ∧ target.room = c.room then
          (h, [OutMsg.signalOut target.id c.id (coalNull (getField msg "signal".data))])
        else (h, [OutMsg.errWithTarget c.id "peer-outside-room".data targetId])
    | _ => (h, [OutMsg.errSimple c.id "missing-target".data])
  else if isType msg "direct".data then
    match getField msg "to".data with
    | .vstr targetId =>
      match mapGet h.clients targetId with
      | none => (h, [OutMsg.errWithTarget c.id "peer-not-found".data targetId])
      | some target =>
        if target.app = c.app ∧ target.room = c.room then
          (h, [OutMsg.directOut target.id c.id (coalNull (getField msg "payload".data))])
        else (h, [OutMsg.errWithTarget c.id "peer-outside-room".data targetId])
    | _ => (h, [OutMsg.errSimple c.id "missing-target".data])
  else if isType msg "broadcast".data then
    match mapGet h.rooms (roomKey (ostr c.app) (ostr c.room)) with
    | none => (h, [])
    | some members =>
      (h, members.filterMap (fun peerId =>
        if peerId = c.id then none
        else (mapGet h.clients peerId).map (fun peer =>
          OutMsg.broadcastOut peer.id c.id (coalNull (getField msg "payload".data)))))
  else if isType msg "set-meta".data then
    handleSetMeta rand now h wsId c (getField msg "patch".data)
  else if isType msg "ping".data then
    (h, [OutMsg.pongOut c.id now])
  else
    (h, [OutMsg.errUnknownType c.id (coalNull (getField msg "type".data))])

/-- `handleFirstJoin(client, msg)` with room capacity `maxRoomSize = N`. -/
def handleFirstJoin (N : Nat) (rand : Nat → Nat) (now : Nat) (h : Hub)
    (wsId : JStr) (c : Client) (msg : JsVal) : Hub × List OutMsg :=
  if ¬ isType msg "join".data then
    (h, [OutMsg.errSimple c.id "join-required-first".data])
  else
    match getField msg "app".data, getField msg "room".data with
    | .vstr app, .vstr room =>
      if validChannelNameStr app ∧ validChannelNameStr room then
        let key := roomKey app room
        let members := (mapGet h.rooms key).getD []
        if N ≤ members.length then (h, [OutMsg.errRoomFull c.id N])
        else
          let nextMeta0 := normalizeMeta (getField msg "meta".data)
          let finalName := uniqueName h rand now nextMeta0.name key (some c.id)
          let nextMeta : Meta := ⟨finalName, nextMeta0.status⟩
          let peers := members
          let peerMeta := peers.map (fun peerId =>
            (peerId, (mapGet h.clients peerId).bind Client.meta))
          let members2 := setAdd members c.id
          let rooms2 := mapSet h.rooms key members2
          let c2 : Client := { c with app := some app, room := some room, meta := some nextMeta }
          let clients2 := mapSet h.clients wsId c2
          (⟨rooms2, clients2⟩,
            OutMsg.welcome c.id c.id app room peers peerMeta nextMeta N ::
            peers.filterMap (fun peerId =>
              (mapGet clients2 peerId).map (fun peer =>
                OutMsg.peerJoined peer.id c.id nextMeta)))
      else (h, [OutMsg.errSimple c.id "invalid-app-or-room".data])
    | _, _ => (h, [OutMsg.errSimple c.id "invalid-app-or-room".data])

/-- `handleMessage(ws, raw)`: look the client up, parse (`raw = none` models
unparseable JSON), then two-phase dispatch on the join state. -/
def handleMessage (N : Nat) (rand : Nat → Nat) (now : Nat) (h : Hub)
    (wsId : JStr) (raw : Option JsVal) : Hub × List OutMsg :=
  match mapGet h.clients wsId with
  | none => (h, [])
  | some client =>
    match raw with
    | none => (h, [OutMsg.errSimple wsId "invalid-json".data])
    | some msg =>
      if otruthy client.app ∧ otruthy client.room then
        handleJoinedClientMessage rand now h wsId client msg
      else handleFirstJoin N rand now h wsId client msg

/-- Connection accept in `fetch`: register a fresh unjoined client. -/
def acceptClient (h : Hub) (id : JStr) : Hub :=
  ⟨h.rooms, mapSet h.clients id ⟨id, none, none, none⟩⟩

/-! ## Transition system -/

/-- One externally triggered transition of the hub with configured maximum
room size `N`: a connection accept (with a fresh, nonempty UUID), a delivered
websocket message (with `randomSuffix()` outcomes in `[100, 999]`), or a
close/error teardown. -/
inductive Step (N : Nat) : Hub → Hub → Prop where
  | accept (h : Hub) (id : JStr) (hne : id ≠ [])
      (hfresh : mapGet h.clients id = none)
      (hmem : ∀ k ms, mapGet h.rooms k = some ms → id ∉ ms) :
      Step N h (acceptClient h id)
  | message (h : Hub) (wsId : JStr) (raw : Option JsVal) (rand : Nat → Nat)
      (now : Nat) (hrand : ∀ i, 100 ≤ rand i ∧ rand i ≤ 999) :
      Step N h (handleMessage N rand now h wsId raw).1
  | disconnect (h : Hub) (id : JStr) : Step N h (leaveRoom h id).1

/-- Hub states reachable from the initial empty registries. -/
inductive Reachable (N : Nat) : Hub → Prop where
  | init : Reachable N ⟨[], []⟩
  | step {h h' : Hub} : Reachable N h → Step N h h' → Reachable N h'

/-! ## Wire-message constructors used to state the claims -/

/-- A parsed `join` message. -/
def joinMsg (app room metaV : JsVal) : JsVal :=
  .vobj [("type".data, .vstr "join".data), ("app".data, app),
         ("room".data, room), ("meta".data, metaV)]

/-- A parsed `signal` message. -/
def signalMsg (toV sigV : JsVal) : JsVal :=
  .vobj [("type".data, .vstr "signal".data), ("to".data, toV),
         ("signal".data, sigV)]

/-- A parsed `direct` message. -/
def directMsg (toV payloadV : JsVal) : JsVal :=
  .vobj [("type".data, .vstr "direct".data), ("to".data, toV),
         ("payload".data, payloadV)]

/-- A parsed `set-meta` message. -/
def setMetaMsg (patch : JsVal) : JsVal :=
  .vobj [("type".data, .vstr "set-meta".data), ("patch".data, patch)]

/-! ## Association-list map lemmas -/

theorem mapGet_mapSet_self {α : Type} (m : List (JStr × α)) (k : JStr) (v : α) :
    mapGet (mapSet m k v) k = some v := by
  induction m with
  | nil => simp [mapGet, mapSet]
  | cons e t ih =>
    obtain ⟨k', v'⟩ := e
    by_cases hk : k' = k <;> simp [mapGet, mapSet, hk, ih]

theorem mapGet_mapSet_ne {α : Type} (m : List (JStr × α)) {k k' : JStr} (v : α)
    (h : k' ≠ k) : mapGet (mapSet m k v) k' = mapGet m k' := by
  have h2 : ¬ k = k' := fun he => h he.symm
  induction m with
  | nil => simp [mapGet, mapSet, h2]
  | cons e t ih =>
    obtain ⟨k'', v''⟩ := e
    by_cases hk : k'' = k
    · have hkk' : ¬ k'' = k' := by rw [hk]; exact h2
      simp [mapGet, mapSet, hk, hkk', h2]
    · by_cases hk' : k'' = k' <;> simp [mapGet, mapSet, hk, hk', h, ih]

theorem mapGet_mapDel_self {α : Type} (m : List (JStr × α)) (k : JStr) :
    mapGet (mapDel m k) k = none := by
  induction m with
  | nil => simp [mapGet, mapDel]
  | cons e t ih =>
    obtain ⟨k', v'⟩ := e
    by_cases hk : k' = k <;> simp [mapGet, mapDel, hk, ih]

theorem mapGet_mapDel_ne {α : Type} (m : List (JStr × α)) {k k' : JStr}
    (h : k' ≠ k) : mapGet (mapDel m k) k' = mapGet m k' := by
  induction m with
  | nil => simp [mapGet, mapDel]
  | cons e t ih =>
    obtain ⟨k'', v''⟩ := e
    by_cases hk : k'' = k
    · have hkk' : ¬ k'' = k' := by rw [hk]; exact fun he => h he.symm
      have h2 : ¬ k = k' := fun he => h he.symm
      simp [mapGet, mapDel, hk, hkk', h2, ih]
    · by_cases hk' : k'' = k' <;> simp [mapGet, mapDel, hk, hk', h, ih]

/-! ## C5: teardown idempotence -/

theorem leaveRoom_clients_lookup_self (h : Hub) (id : JStr) :
    mapGet (leaveRoom h id).1.clients id = none := by
  unfold leaveRoom
  cases hmg : mapGet h.clients id with
  | none => simpa using hmg
  | some c => simp [mapGet_mapDel_self]

/-- C5: teardown is idempotent — running `leaveRoom` a second time for the
same client id leaves the hub unchanged and emits no notification, so two
invocations have exactly the observable effect of one. -/
theorem C5_leaveRoom_idempotent (h : Hub) (id : JStr) :
    leaveRoom (leaveRoom h id).1 id = ((leaveRoom h id).1, []) := by
  have hnone := leaveRoom_clients_lookup_self h id
  generalize (leaveRoom h id).1 = h1 at hnone ⊢
  unfold leaveRoom
  simp [hnone]

/-! ## C9: room-key injection safety -/

theorem valid_no_colon {s : JStr} (hs : validChannelNameStr s = true) :
    ':' ∉ s := by
  intro hc
  have hall : s.all isWordChar = true := by
    simp only [validChannelNameStr, Bool.and_eq_true] at hs
    exact hs.2
  have := (List.all_eq_true.mp hall) ':' hc
  simp [isWordChar] at this

theorem append_colon_sep_inj {a1 a2 r1 r2 : JStr} (h1 : ':' ∉ a1)
    (h2 : ':' ∉ a2) (he : a1 ++ ':' :: ':' :: r1 = a2 ++ ':' :: ':' :: r2) :
    a1 = a2 ∧ r1 = r2 := by
  induction a1 generalizing a2 with
  | nil =>
    cases a2 with
    | nil => simpa using he
    | cons b t =>
      exfalso
      apply h2
      have hb : b = ':' := by
        have := congrArg (fun l => l.head?) he
        simpa using this.symm
      simp [hb]
  | cons a t ih =>
    cases a2 with
    | nil =>
      exfalso
      apply h1
      have ha : a = ':' := by
        have := congrArg (fun l => l.head?) he
        simpa using this
      simp [ha]
    | cons b t2 =>
      simp only [List.cons_append, List.cons.injEq] at he
      obtain ⟨hab, htl⟩ := he
      have h1' : ':' ∉ t := fun hm => h1 (List.mem_cons_of_mem _ hm)
      have h2' : ':' ∉ t2 := fun hm => h2 (List.mem_cons_of_mem _ hm)
      obtain ⟨hteq, hreq⟩ := ih h1' h2' htl
      exact ⟨by rw [hab, hteq], hreq⟩

theorem roomKey_as_cons (a r : JStr) : roomKey a r = a ++ ':' :: ':' :: r := by
  simp [roomKey]

/-- C9: `roomKey` is injection-safe — for validated channel names (whose
character class excludes the `:` separator), equal composite keys force equal
app and room names. -/
theorem C9_roomKey_injection_safe (a1 r1 a2 r2 : JStr)
    (ha1 : validChannelNameStr a1 = true) (hr1 : validChannelNameStr r1 = true)
    (ha2 : validChannelNameStr a2 = true) (hr2 : validChannelNameStr r2 = true)
    (heq : roomKey a1 r1 = roomKey a2 r2) : a1 = a2 ∧ r1 = r2 := by
  rw [roomKey_as_cons, roomKey_as_cons] at heq
  exact append_colon_sep_inj (valid_no_colon ha1) (valid_no_colon ha2) heq

/-- Witness for C9 at concrete validated names. -/
theorem C9_roomKey_injection_safe_witness :
    "app1".data = "app1".data ∧ "room-a".data = "room-a".data :=
  C9_roomKey_injection_safe "app1".data "room-a".data "app1".data "room-a".data
    (by decide) (by decide) (by decide) (by decide) rfl

/-! ## Evaluation lemmas for the wire-message constructors -/

theorem isType_joinMsg (a r m : JsVal) : isType (joinMsg a r m) "join".data = true := rfl

theorem getField_joinMsg_app (a r m : JsVal) : getField (joinMsg a r m) "app".data = a := rfl

theorem getField_joinMsg_room (a r m : JsVal) : getField (joinMsg a r m) "room".data = r := rfl

theorem getField_joinMsg_meta (a r m : JsVal) : getField (joinMsg a r m) "meta".data = m := rfl

theorem isType_signalMsg_signal (toV sigV : JsVal) :
    isType (signalMsg toV sigV) "signal".data = true := rfl

theorem isType_directMsg_signal (toV pV : JsVal) :
    isType (directMsg toV pV) "signal".data = false := rfl

theorem isType_directMsg_direct (toV pV : JsVal) :
    isType (directMsg toV pV) "direct".data = true := rfl

theorem getField_signalMsg_to (toV sigV : JsVal) :
    getField (signalMsg toV sigV) "to".data = toV := rfl

theorem getField_signalMsg_signal (toV sigV : JsVal) :
    getField (signalMsg toV sigV) "signal".data = sigV := rfl

theorem getField_directMsg_to (toV pV : JsVal) :
    getField (directMsg toV pV) "to".data = toV := rfl

theorem getField_directMsg_payload (toV pV : JsVal) :
    getField (directMsg toV pV) "payload".data = pV := rfl

theorem isType_setMetaMsg_setMeta (patch : JsVal) :
    isType (setMetaMsg patch) "set-meta".data = true := rfl

theorem isType_setMetaMsg_signal (patch : JsVal) :
    isType (setMetaMsg patch) "signal".data = false := rfl

theorem isType_setMetaMsg_direct (patch : JsVal) :
    isType (setMetaMsg patch) "direct".data = false := rfl

theorem isType_setMetaMsg_broadcast (patch : JsVal) :
    isType (setMetaMsg patch) "broadcast".data = false := rfl

theorem getField_setMetaMsg_patch (patch : JsVal) :
    getField (setMetaMsg patch) "patch".data = patch := rfl

theorem hjcm_signal_eq (rand : Nat → Nat) (now : Nat) (h : Hub) (wsId t : JStr)
    (c : Client) (sigV : JsVal) :
    handleJoinedClientMessage rand now h wsId c (signalMsg (.vstr t) sigV) =
      (match mapGet h.clients t with
       | none => (h, [OutMsg.errWithTarget c.id "peer-not-found".data t])
       | some target =>
         if target.app = c.app ∧ target.room = c.room then
           (h, [OutMsg.signalOut target.id c.id (coalNull sigV)])
         else (h, [OutMsg.errWithTarget c.id "peer-outside-room".data t])) := rfl

theorem hjcm_direct_eq (rand : Nat → Nat) (now : Nat) (h : Hub) (wsId t : JStr)
    (c : Client) (pV : JsVal) :
    handleJoinedClientMessage rand now h wsId c (directMsg (.vstr t) pV) =
      (match mapGet h.clients t with
       | none => (h, [OutMsg.errWithTarget c.id "peer-not-found".data t])
       | some target =>
         if target.app = c.app ∧ target.room = c.room then
           (h, [OutMsg.directOut target.id c.id (coalNull pV)])
         else (h, [OutMsg.errWithTarget c.id "peer-outside-room".data t])) := rfl

theorem hjcm_setMeta_eq (rand : Nat → Nat) (now : Nat) (h : Hub) (wsId : JStr)
    (c : Client) (patch : JsVal) :
    handleJoinedClientMessage rand now h wsId c (setMetaMsg patch) =
      handleSetMeta rand now h wsId c patch := rfl

theorem handleMessage_joined {h : Hub} {wsId : JStr} {c : Client}
    (hlook : mapGet h.clients wsId = some c)
    (hj : otruthy c.app = true ∧ otruthy c.room = true)
    (N : Nat) (rand : Nat → Nat) (now : Nat) (msg : JsVal) :
    handleMessage N rand now h wsId (some msg) =
      handleJoinedClientMessage rand now h wsId c msg := by
  simp [handleMessage, hlook, hj]

theorem handleMessage_unjoined {h : Hub} {wsId : JStr} {c : Client}
    (hlook : mapGet h.clients wsId = some c)
    (hj : ¬ (otruthy c.app = true ∧ otruthy c.room = true))
    (N : Nat) (rand : Nat → Nat) (now : Nat) (msg : JsVal) :
    handleMessage N rand now h wsId (some msg) =
      handleFirstJoin N rand now h wsId c msg := by
  simp [handleMessage, hlook, hj]

/-! ## C7: addressed-relay error handling -/

/-- C7: for a joined sender, `signal` and `direct` fail with `missing-target`
when `to` is not a string, `peer-not-found` when no such client exists,
`peer-outside-room` when the target's `(app, room)` differs — each error
going to the sender alone with the registries untouched — and otherwise the
payload is forwarded to the target only, tagged with the sender's id. -/
theorem C7_relay_errors (N : Nat) (rand : Nat → Nat) (now : Nat) (h : Hub)
    (wsId : JStr) (c : Client) (toV sigV : JsVal)
    (hlook : mapGet h.clients wsId = some c)
    (hj : otruthy c.app = true ∧ otruthy c.room = true) :
    ((∀ s, toV ≠ .vstr s) →
      handleMessage N rand now h wsId (some (signalMsg toV sigV)) =
        (h, [OutMsg.errSimple c.id "missing-target".data]) ∧
      handleMessage N rand now h wsId (some (directMsg toV sigV)) =
        (h, [OutMsg.errSimple c.id "missing-target".data])) ∧
    (∀ t, toV = .vstr t → mapGet h.clients t = none →
      handleMessage N rand now h wsId (some (signalMsg toV sigV)) =
        (h, [OutMsg.errWithTarget c.id "peer-not-found".data t]) ∧
      handleMessage N rand now h wsId (some (directMsg toV sigV)) =
        (h, [OutMsg.errWithTarget c.id "peer-not-found".data t])) ∧
    (∀ t target, toV = .vstr t → mapGet h.clients t = some target →
      ¬ (target.app = c.app ∧ target.room = c.room) →
      handleMessage N rand now h wsId (some (signalMsg toV sigV)) =
        (h, [OutMsg.errWithTarget c.id "peer-outside-room".data t]) ∧
      handleMessage N rand now h wsId (some (directMsg toV sigV)) =
        (h, [OutMsg.errWithTarget c.id "peer-outside-room".data t])) ∧
    (∀ t target, toV = .vstr t → mapGet h.clients t = some target →
      target.app = c.app → target.room = c.room →
      handleMessage N rand now h wsId (some (signalMsg toV sigV)) =
        (h, [OutMsg.signalOut target.id c.id (coalNull sigV)]) ∧
      handleMessage N rand now h wsId (some (directMsg toV sigV)) =
        (h, [OutMsg.directOut target.id c.id (coalNull sigV)])) := by
  refine ⟨fun hns => ⟨?_, ?_⟩, fun t ht hn => ?_, fun t target ht htg hne => ?_,
    fun t target ht htg ha hr => ?_⟩
  · rw [handleMessage_joined hlook hj]
    cases toV <;> first
      | rfl
      | (exact absurd rfl (hns _))
  · rw [handleMessage_joined hlook hj]
    cases toV <;> first
      | rfl
      | (exact absurd rfl (hns _))
  · subst ht
    constructor
    · rw [handleMessage_joined hlook hj, hjcm_signal_eq, hn]
    · rw [handleMessage_joined hlook hj, hjcm_direct_eq, hn]
  · subst ht
    constructor
    · rw [handleMessage_joined hlook hj, hjcm_signal_eq, htg]
      simp [hne]
    · rw [handleMessage_joined hlook hj, hjcm_direct_eq, htg]
      simp [hne]
  · subst ht
    constructor
    · rw [handleMessage_joined hlook hj, hjcm_signal_eq, htg]
      simp [ha, hr]
    · rw [handleMessage_joined hlook hj, hjcm_direct_eq, htg]
      simp [ha, hr]

/-- Witness for C7 at a concrete two-room hub: a cross-room `signal` yields
`peer-outside-room` and delivers nothing. -/
theorem C7_relay_errors_witness :
    handleMessage 8 (fun _ => 100) 0
        ⟨[("app::r1".data, ["A".data]), ("app::r2".data, ["B".data])],
         [("A".data, ⟨"A".data, some "app".data, some "r1".data,
            some ⟨"Player".data, "lobby".data⟩⟩),
          ("B".data, ⟨"B".data, some "app".data, some "r2".data,
            some ⟨"Player".data, "lobby".data⟩⟩)]⟩
        "A".data (some (signalMsg (.vstr "B".data) .vnull)) =
      (⟨[("app::r1".data, ["A".data]), ("app::r2".data, ["B".data])],
        [("A".data, ⟨"A".data, some "app".data, some "r1".data,
           some ⟨"Player".data, "lobby".data⟩⟩),
         ("B".data, ⟨"B".data, some "app".data, some "r2".data,
           some ⟨"Player".data, "lobby".data⟩⟩)]⟩,
       [OutMsg.errWithTarget "A".data "peer-outside-room".data "B".data]) := by
  have := (C7_relay_errors 8 (fun _ => 100) 0
    ⟨[("app::r1".data, ["A".data]), ("app::r2".data, ["B".data])],
     [("A".data, ⟨"A".data, some "app".data, some "r1".data,
        some ⟨"Player".data, "lobby".data⟩⟩),
      ("B".data, ⟨"B".data, some "app".data, some "r2".data,
        some ⟨"Player".data, "lobby".data⟩⟩)]⟩
    "A".data ⟨"A".data, some "app".data, some "r1".data,
      some ⟨"Player".data, "lobby".data⟩⟩ (.vstr "B".data) .vnull
    (by rfl) (by constructor <;> rfl)).2.2.1 "B".data
    ⟨"B".data, some "app".data, some "r2".data, some ⟨"Player".data, "lobby".data⟩⟩
    rfl (by rfl) (by intro hc; exact absurd (congrArg (fun o => o.getD []) hc.2) (by decide))
  exact this.1

/-! ## C8: metadata patch merge -/

theorem handleSetMeta_obj_eq (rand : Nat → Nat) (now : Nat) (h : Hub)
    (wsId : JStr) (c : Client) (fields : List (JStr × JsVal)) :
    handleSetMeta rand now h wsId c (.vobj fields) =
      (let name2 :=
        if ((fields.lookup "name".data).isSome : Bool) then
          uniqueName h rand now
            (normalizeDisplayName (getField (JsVal.vobj fields) "name".data))
            (roomKey (ostr c.app) (ostr c.room)) (some c.id)
        else (c.meta.map Meta.name).getD "Player".data
       let status2 :=
        if ((fields.lookup "status".data).isSome : Bool) then
          normalizePresenceStatus (getField (JsVal.vobj fields) "status".data)
        else (c.meta.map Meta.status).getD "lobby".data
       let c2 : Client := { c with meta := some ⟨name2, status2⟩ }
       (⟨h.rooms, mapSet h.clients wsId c2⟩,
        relayPeerMeta ⟨h.rooms, mapSet h.clients wsId c2⟩ c2 true)) := rfl

/-- C8: for a joined client, a `set-meta` whose patch is an object merges
exactly the present fields into the prior metadata (`name` re-resolved by the
allocator excluding the client itself, `status` normalized), absent fields
keeping their prior values; a non-object patch yields `invalid-meta-patch`
with no state change. -/
theorem C8_set_meta_merge (N : Nat) (rand : Nat → Nat) (now : Nat) (h : Hub)
    (wsId : JStr) (c : Client) (m : Meta) (patch : JsVal)
    (hlook : mapGet h.clients wsId = some c)
    (hj : otruthy c.app = true ∧ otruthy c.room = true)
    (hm : c.meta = some m) :
    (∀ fields, patch = .vobj fields →
      (handleMessage N rand now h wsId (some (setMetaMsg patch))).1.rooms =
        h.rooms ∧
      (handleMessage N rand now h wsId (some (setMetaMsg patch))).1.clients =
        mapSet h.clients wsId { c with meta := some ⟨
          (if ((fields.lookup "name".data).isSome : Bool) then
            uniqueName h rand now (normalizeDisplayName (getField patch "name".data))
              (roomKey (ostr c.app) (ostr c.room)) (some c.id)
          else m.name),
          (if ((fields.lookup "status".data).isSome : Bool) then
            normalizePresenceStatus (getField patch "status".data)
          else m.status)⟩ }) ∧
    ((∀ fields, patch ≠ .vobj fields) →
      handleMessage N rand now h wsId (some (setMetaMsg patch)) =
        (h, [OutMsg.errSimple c.id "invalid-meta-patch".data])) := by
  constructor
  · rintro fields rfl
    rw [handleMessage_joined hlook hj, hjcm_setMeta_eq, handleSetMeta_obj_eq]
    constructor <;> simp only [hm, Option.map_some', Option.getD_some]
  · intro hnobj
    rw [handleMessage_joined hlook hj, hjcm_setMeta_eq]
    cases patch with
    | vobj fields => exact absurd rfl (hnobj fields)
    | vstr s => rfl
    | vnum n => rfl
    | vbool b => rfl
    | vnull => rfl
    | vundef => rfl

/-- Fixture: a joined client `A` alone in room `app::r1`. -/
def wA : Client :=
  ⟨"A".data, some "app".data, some "r1".data, some ⟨"Alice".data, "lobby".data⟩⟩

/-- Fixture: the hub containing only `wA`. -/
def wHubA : Hub := ⟨[("app::r1".data, ["A".data])], [("A".data, wA)]⟩

/-- Witness for C8: patching only `status` keeps the name and replaces the
status; a string patch is rejected. -/
theorem C8_set_meta_merge_witness :
    (handleMessage 8 (fun _ => 100) 0 wHubA "A".data
        (some (setMetaMsg (.vobj [("status".data, .vstr "playing".data)])))).1.clients =
      mapSet wHubA.clients "A".data
        { wA with meta := some ⟨"Alice".data, "playing".data⟩ } ∧
    handleMessage 8 (fun _ => 100) 0 wHubA "A".data
        (some (setMetaMsg (.vstr "nope".data))) =
      (wHubA, [OutMsg.errSimple "A".data "invalid-meta-patch".data]) := by
  have h1 := (C8_set_meta_merge 8 (fun _ => 100) 0 wHubA "A".data wA
    ⟨"Alice".data, "lobby".data⟩ (.vobj [("status".data, .vstr "playing".data)])
    rfl (by constructor <;> rfl) rfl).1 [("status".data, .vstr "playing".data)] rfl
  have h2 := (C8_set_meta_merge 8 (fun _ => 100) 0 wHubA "A".data wA
    ⟨"Alice".data, "lobby".data⟩ (.vstr "nope".data)
    rfl (by constructor <;> rfl) rfl).2 (by intro fields hc; cases hc)
  refine ⟨?_, h2⟩
  rw [h1.2]
  rfl

/-! ## C10: self-addressed relay is accepted -/

/-- C10: a joined client addressing a `signal` or `direct` to its own id is
not rejected — the lookup finds the sender, the room check passes trivially,
and the message is delivered back to the sender tagged with its own id. -/
theorem C10_self_relay (N : Nat) (rand : Nat → Nat) (now : Nat) (h : Hub)
    (wsId : JStr) (c : Client) (sigV pV : JsVal)
    (hlook : mapGet h.clients wsId = some c)
    (hj : otruthy c.app = true ∧ otruthy c.room = true) :
    handleMessage N rand now h wsId (some (signalMsg (.vstr wsId) sigV)) =
      (h, [OutMsg.signalOut c.id c.id (coalNull sigV)]) ∧
    handleMessage N rand now h wsId (some (directMsg (.vstr wsId) pV)) =
      (h, [OutMsg.directOut c.id c.id (coalNull pV)]) := by
  constructor
  · rw [handleMessage_joined hlook hj, hjcm_signal_eq, hlook]
    simp
  · rw [handleMessage_joined hlook hj, hjcm_direct_eq, hlook]
    simp

/-- Witness for C10: `A` signals itself and receives the echo. -/
theorem C10_self_relay_witness :
    handleMessage 8 (fun _ => 100) 0 wHubA "A".data
        (some (signalMsg (.vstr "A".data) (.vstr "sdp".data))) =
      (wHubA, [OutMsg.signalOut "A".data "A".data (.vstr "sdp".data)]) := by
  have := (C10_self_relay 8 (fun _ => 100) 0 wHubA "A".data wA
    (.vstr "sdp".data) .vnull rfl (by constructor <;> rfl)).1
  exact this

/-! ## C3: allocator loop characterizations -/

theorem tryRandomFrom_some {rand : Nat → Nat} {base : JStr} {used : List JStr}
    {c : JStr} : ∀ fuel i, tryRandomFrom rand base used fuel i = some c →
    jsToLower c ∉ used ∧ ∃ j, i ≤ j ∧ j < i + fuel ∧ c = base ++ natDec (rand j) := by
  intro fuel
  induction fuel with
  | zero => intro i h; simp [tryRandomFrom] at h
  | succ f ih =>
    intro i h
    simp only [tryRandomFrom] at h
    split at h
    · obtain ⟨hni, j, hj1, hj2, hc⟩ := ih (i + 1) h
      exact ⟨hni, j, by omega, by omega, hc⟩
    · next hcond =>
      cases h
      exact ⟨hcond, i, Nat.le_refl i, by omega, rfl⟩

theorem tryRandomFrom_none {rand : Nat → Nat} {base : JStr} {used : List JStr} :
    ∀ fuel i, tryRandomFrom rand base used fuel i = none →
    ∀ j, i ≤ j → j < i + fuel → jsToLower (base ++ natDec (rand j)) ∈ used := by
  intro fuel
  induction fuel with
  | zero => intro i _ j _ _; omega
  | succ f ih =>
    intro i h j hj1 hj2
    simp only [tryRandomFrom] at h
    split at h
    · next hcond =>
      by_cases hji : j = i
      · rwa [hji]
      · exact ih (i + 1) h j (by omega) (by omega)
    · cases h

theorem trySeqFrom_some_aux {base : JStr} {used : List JStr} {c : JStr} :
    ∀ fuel n, 10000 - n ≤ fuel → trySeqFrom base used n = some c →
    jsToLower c ∉ used ∧ ∃ k, n ≤ k ∧ k < 10000 ∧ c = base ++ natDec k := by
  intro fuel
  induction fuel with
  | zero =>
    intro n hle h
    unfold trySeqFrom at h
    have hn : ¬ n < 10000 := by omega
    simp [hn] at h
  | succ f ih =>
    intro n hle h
    unfold trySeqFrom at h
    by_cases h10 : n < 10000
    · simp only [h10, dite_true] at h
      split at h
      · obtain ⟨hni, k, hk1, hk2, hc⟩ := ih (n + 1) (by omega) h
        exact ⟨hni, k, by omega, hk2, hc⟩
      · next hcond =>
        cases h
        exact ⟨hcond, n, Nat.le_refl n, h10, rfl⟩
    · simp [h10] at h

theorem trySeqFrom_none_aux {base : JStr} {used : List JStr} :
    ∀ fuel n, 10000 - n ≤ fuel → trySeqFrom base used n = none →
    ∀ k, n ≤ k → k < 10000 → jsToLower (base ++ natDec k) ∈ used := by
  intro fuel
  induction fuel with
  | zero => intro n hle _ k hk1 hk2; omega
  | succ f ih =>
    intro n hle h k hk1 hk2
    unfold trySeqFrom at h
    have h10 : n < 10000 := by omega
    simp only [h10, dite_true] at h
    split at h
    · next hcond =>
      by_cases hkn : k = n
      · rwa [hkn]
      · exact ih (n + 1) (by omega) h k (by omega) hk2
    · cases h

theorem trySeqFrom_some {base : JStr} {used : List JStr} {n : Nat} {c : JStr}
    (h : trySeqFrom base used n = some c) :
    jsToLower c ∉ used ∧ ∃ k, n ≤ k ∧ k < 10000 ∧ c = base ++ natDec k :=
  trySeqFrom_some_aux (10000 - n) n (Nat.le_refl _) h

theorem trySeqFrom_none {base : JStr} {used : List JStr} {n : Nat}
    (h : trySeqFrom base used n = none) :
    ∀ k, n ≤ k → k < 10000 → jsToLower (base ++ natDec k) ∈ used :=
  trySeqFrom_none_aux (10000 - n) n (Nat.le_refl _) h

theorem append_suffix_ne_self (base s : JStr) (hs : s ≠ []) : base ++ s ≠ base := by
  intro h
  have := congrArg List.length h
  simp at this
  exact hs this

theorem uniqueNameFrom_fresh {rand : Nat → Nat} {now : Nat} {base : JStr}
    {used : List JStr} (hf : jsToLower base ∉ used) :
    uniqueNameFrom rand now base used = base := by
  simp [uniqueNameFrom, hf]

theorem uniqueNameFrom_taken {rand : Nat → Nat} {now : Nat} {base : JStr}
    {used : List JStr} (ht : jsToLower base ∈ used) :
    uniqueNameFrom rand now base used =
      (match tryRandomFrom rand base used 500 0 with
       | some c => c
       | none =>
         match trySeqFrom base used 2 with
         | some c => c
         | none => base ++ natDec (now % 100000)) := by
  simp [uniqueNameFrom, ht]

theorem uniqueNameFrom_rand {rand : Nat → Nat} {now : Nat} {base c : JStr}
    {used : List JStr} (ht : jsToLower base ∈ used)
    (hr : tryRandomFrom rand base used 500 0 = some c) :
    uniqueNameFrom rand now base used = c := by
  rw [uniqueNameFrom_taken ht, hr]

theorem uniqueNameFrom_seq {rand : Nat → Nat} {now : Nat} {base c : JStr}
    {used : List JStr} (ht : jsToLower base ∈ used)
    (hr : tryRandomFrom rand base used 500 0 = none)
    (hs : trySeqFrom base used 2 = some c) :
    uniqueNameFrom rand now base used = c := by
  rw [uniqueNameFrom_taken ht, hr, hs]

theorem uniqueNameFrom_fallback {rand : Nat → Nat} {now : Nat} {base : JStr}
    {used : List JStr} (ht : jsToLower base ∈ used)
    (hr : tryRandomFrom rand base used 500 0 = none)
    (hs : trySeqFrom base used 2 = none) :
    uniqueNameFrom rand now base used = base ++ natDec (now % 100000) := by
  rw [uniqueNameFrom_taken ht, hr, hs]

/-- C3: `uniqueName` returns the normalized base name unchanged exactly when
its lower-case form is unused among current room members (excluding
`ignoreId`); otherwise it appends a suffix — a random 3-digit integer in
`[100, 999]` within 500 attempts, else the first free sequential suffix in
`[2, 10000)`, else `now % 100000` unchecked — and any return before the final
timestamp fallback is fresh w.r.t. the used-name set. -/
theorem C3_unique_name_allocator (h : Hub) (rand : Nat → Nat) (now : Nat)
    (baseName key : JStr) (ignoreId : Option JStr)
    (hrand : ∀ i, 100 ≤ rand i ∧ rand i ≤ 999) :
    (uniqueName h rand now baseName key ignoreId = normalizeDisplayNameStr baseName ↔
      jsToLower (normalizeDisplayNameStr baseName) ∉ roomUsedNames h key ignoreId) ∧
    (jsToLower (normalizeDisplayNameStr baseName) ∈ roomUsedNames h key ignoreId →
      (∃ i, i < 500 ∧
        uniqueName h rand now baseName key ignoreId =
          normalizeDisplayNameStr baseName ++ natDec (rand i) ∧
        100 ≤ rand i ∧ rand i ≤ 999 ∧
        jsToLower (uniqueName h rand now baseName key ignoreId) ∉
          roomUsedNames h key ignoreId) ∨
      (tryRandomFrom rand (normalizeDisplayNameStr baseName)
          (roomUsedNames h key ignoreId) 500 0 = none ∧
        ∃ k, 2 ≤ k ∧ k < 10000 ∧
          uniqueName h rand now baseName key ignoreId =
            normalizeDisplayNameStr baseName ++ natDec k ∧
          jsToLower (uniqueName h rand now baseName key ignoreId) ∉
            roomUsedNames h key ignoreId) ∨
      (tryRandomFrom rand (normalizeDisplayNameStr baseName)
          (roomUsedNames h key ignoreId) 500 0 = none ∧
        trySeqFrom (normalizeDisplayNameStr baseName)
          (roomUsedNames h key ignoreId) 2 = none ∧
        uniqueName h rand now baseName key ignoreId =
          normalizeDisplayNameStr baseName ++ natDec (now % 100000))) := by
  have hun : uniqueName h rand now baseName key ignoreId =
      uniqueNameFrom rand now (normalizeDisplayNameStr baseName)
        (roomUsedNames h key ignoreId) := rfl
  rw [hun]
  set base := normalizeDisplayNameStr baseName with hbase
  set used := roomUsedNames h key ignoreId with hused
  by_cases hmem : jsToLower base ∈ used
  · constructor
    · constructor
      · intro heq
        exfalso
        cases hr : tryRandomFrom rand base used 500 0 with
        | some c =>
          obtain ⟨hni, j, hj1, hj2, hc⟩ := tryRandomFrom_some 500 0 hr
          rw [uniqueNameFrom_rand hmem hr, hc] at heq
          exact append_suffix_ne_self base _ (natDec_ne_nil _) heq
        | none =>
          cases hs : trySeqFrom base used 2 with
          | some c =>
            obtain ⟨hni, k, hk1, hk2, hc⟩ := trySeqFrom_some hs
            rw [uniqueNameFrom_seq hmem hr hs, hc] at heq
            exact append_suffix_ne_self base _ (natDec_ne_nil _) heq
          | none =>
            rw [uniqueNameFrom_fallback hmem hr hs] at heq
            exact append_suffix_ne_self base _ (natDec_ne_nil _) heq
      · intro hf
        exact absurd hmem hf
    · intro _
      cases hr : tryRandomFrom rand base used 500 0 with
      | some c =>
        obtain ⟨hni, j, hj1, hj2, hc⟩ := tryRandomFrom_some 500 0 hr
        refine Or.inl ⟨j, by omega, ?_, (hrand j).1, (hrand j).2, ?_⟩
        · rw [uniqueNameFrom_rand hmem hr, hc]
        · rw [uniqueNameFrom_rand hmem hr]
          exact hni
      | none =>
        cases hs : trySeqFrom base used 2 with
        | some c =>
          obtain ⟨hni, k, hk1, hk2, hc⟩ := trySeqFrom_some hs
          refine Or.inr (Or.inl ⟨rfl, k, hk1, hk2, ?_, ?_⟩)
          · rw [uniqueNameFrom_seq hmem hr hs, hc]
          · rw [uniqueNameFrom_seq hmem hr hs]
            exact hni
        | none =>
          exact Or.inr (Or.inr ⟨rfl, rfl, uniqueNameFrom_fallback hmem hr hs⟩)
  · rw [uniqueNameFrom_fresh hmem]
    exact ⟨⟨fun _ => hmem, fun _ => rfl⟩, fun hmem2 => absurd hmem2 hmem⟩

/-- Witness for C3: in `wHubA` (used names `{alice}`), base `Bob` is returned
unchanged, and base `Alice` gets the first random suffix `483`. -/
theorem C3_unique_name_allocator_witness :
    uniqueName wHubA (fun _ => 483) 0 "Bob".data "app::r1".data none = "Bob".data ∧
    uniqueName wHubA (fun _ => 483) 0 "Alice".data "app::r1".data none =
      "Alice483".data := by
  have hrand : ∀ i, 100 ≤ (fun (_ : Nat) => 483) i ∧ (fun (_ : Nat) => 483) i ≤ 999 :=
    fun _ => by
      show 100 ≤ 483 ∧ 483 ≤ 999
      exact ⟨by decide, by decide⟩
  constructor
  · exact (C3_unique_name_allocator wHubA (fun _ => 483) 0 "Bob".data
      "app::r1".data none hrand).1.mpr (by decide)
  · have := (C3_unique_name_allocator wHubA (fun _ => 483) 0 "Alice".data
      "app::r1".data none hrand).2 (by decide)
    rfl

/-! ## Join-path case lemmas -/

/-- The metadata a successful join assigns: normalized input metadata with
the name resolved through the allocator against the pre-insertion room. -/
def joinedMeta (h : Hub) (rand : Nat → Nat) (now : Nat) (c : Client)
    (app room : JStr) (metaV : JsVal) : Meta :=
  ⟨uniqueName h rand now (normalizeMeta metaV).name (roomKey app room) (some c.id),
   (normalizeMeta metaV).status⟩

/-- The client record a successful join stores (app/room set, meta final). -/
def joinedClient (c : Client) (app room : JStr) (nm : Meta) : Client :=
  { c with app := some app, room := some room, meta := some nm }

theorem handleFirstJoin_eq (N : Nat) (rand : Nat → Nat) (now : Nat) (h : Hub)
    (wsId : JStr) (c : Client) (app room : JStr) (metaV : JsVal) :
    handleFirstJoin N rand now h wsId c (joinMsg (.vstr app) (.vstr room) metaV) =
      (if validChannelNameStr app ∧ validChannelNameStr room then
        if N ≤ ((mapGet h.rooms (roomKey app room)).getD []).length then
          (h, [OutMsg.errRoomFull c.id N])
        else
          (⟨mapSet h.rooms (roomKey app room)
              (setAdd ((mapGet h.rooms (roomKey app room)).getD []) c.id),
            mapSet h.clients wsId
              (joinedClient c app room (joinedMeta h rand now c app room metaV))⟩,
           OutMsg.welcome c.id c.id app room
             ((mapGet h.rooms (roomKey app room)).getD [])
             (((mapGet h.rooms (roomKey app room)).getD []).map fun peerId =>
               (peerId, (mapGet h.clients peerId).bind Client.meta))
             (joinedMeta h rand now c app room metaV) N ::
           ((mapGet h.rooms (roomKey app room)).getD []).filterMap fun peerId =>
             (mapGet (mapSet h.clients wsId
               (joinedClient c app room (joinedMeta h rand now c app room metaV)))
               peerId).map
               fun peer =>
                 OutMsg.peerJoined peer.id c.id (joinedMeta h rand now c app room metaV))
      else (h, [OutMsg.errSimple c.id "invalid-app-or-room".data])) := rfl

theorem handleFirstJoin_invalid (N : Nat) (rand : Nat → Nat) (now : Nat)
    (h : Hub) (wsId : JStr) (c : Client) (app room : JStr) (metaV : JsVal)
    (hinv : ¬ (validChannelNameStr app = true ∧ validChannelNameStr room = true)) :
    handleFirstJoin N rand now h wsId c (joinMsg (.vstr app) (.vstr room) metaV) =
      (h, [OutMsg.errSimple c.id "invalid-app-or-room".data]) := by
  rw [handleFirstJoin_eq, if_neg hinv]

theorem handleFirstJoin_room_full (N : Nat) (rand : Nat → Nat) (now : Nat)
    (h : Hub) (wsId : JStr) (c : Client) (app room : JStr) (metaV : JsVal)
    (hva : validChannelNameStr app = true) (hvr : validChannelNameStr room = true)
    (hfull : N ≤ ((mapGet h.rooms (roomKey app room)).getD []).length) :
    handleFirstJoin N rand now h wsId c (joinMsg (.vstr app) (.vstr room) metaV) =
      (h, [OutMsg.errRoomFull c.id N]) := by
  rw [handleFirstJoin_eq, if_pos ⟨hva, hvr⟩, if_pos hfull]

theorem handleFirstJoin_success (N : Nat) (rand : Nat → Nat) (now : Nat)
    (h : Hub) (wsId : JStr) (c : Client) (app room : JStr) (metaV : JsVal)
    (key : JStr) (members : List JStr) (nm : Meta) (c2 : Client)
    (hva : validChannelNameStr app = true) (hvr : validChannelNameStr room = true)
    (hkey : key = roomKey app room)
    (hmem : members = (mapGet h.rooms key).getD [])
    (hcap : members.length < N)
    (hnm : nm = joinedMeta h rand now c app room metaV)
    (hc2 : c2 = joinedClient c app room nm) :
    handleFirstJoin N rand now h wsId c (joinMsg (.vstr app) (.vstr room) metaV) =
      (⟨mapSet h.rooms key (setAdd members c.id), mapSet h.clients wsId c2⟩,
       OutMsg.welcome c.id c.id app room members
         (members.map fun peerId =>
           (peerId, (mapGet h.clients peerId).bind Client.meta)) nm N ::
       members.filterMap fun peerId =>
         (mapGet (mapSet h.clients wsId c2) peerId).map fun peer =>
           OutMsg.peerJoined peer.id c.id nm) := by
  subst hkey hmem hnm hc2
  rw [handleFirstJoin_eq, if_pos ⟨hva, hvr⟩, if_neg (Nat.not_le.mpr hcap)]

/-! ## Evolution of the room registry under each operation -/

theorem hjcm_rooms (rand : Nat → Nat) (now : Nat) (h : Hub) (wsId : JStr)
    (c : Client) (msg : JsVal) :
    (handleJoinedClientMessage rand now h wsId c msg).1.rooms = h.rooms := by
  unfold handleJoinedClientMessage handleSetMeta
  repeat' split <;> try rfl

theorem handleFirstJoin_rooms (N : Nat) (rand : Nat → Nat) (now : Nat)
    (h : Hub) (wsId : JStr) (c : Client) (msg : JsVal) :
    (handleFirstJoin N rand now h wsId c msg).1.rooms = h.rooms ∨
    ∃ key, ((mapGet h.rooms key).getD []).length < N ∧
      (handleFirstJoin N rand now h wsId c msg).1.rooms =
        mapSet h.rooms key (setAdd ((mapGet h.rooms key).getD []) c.id) := by
  unfold handleFirstJoin
  split
  · exact Or.inl rfl
  · split
    · split
      · dsimp only
        split
        · exact Or.inl rfl
        · next hcap =>
          exact Or.inr ⟨roomKey _ _, Nat.lt_of_not_le hcap, rfl⟩
      · exact Or.inl rfl
    · exact Or.inl rfl

theorem leaveRoom_rooms (h : Hub) (id : JStr) :
    (leaveRoom h id).1.rooms = h.rooms ∨
    ∃ key members, mapGet h.rooms key = some members ∧
      ((leaveRoom h id).1.rooms = mapDel h.rooms key ∨
       (setDel members id ≠ [] ∧
        (leaveRoom h id).1.rooms = mapSet h.rooms key (setDel members id))) := by
  unfold leaveRoom
  split
  · exact Or.inl rfl
  · next client hcl =>
    by_cases hj : otruthy client.app = true ∧ otruthy client.room = true
    · simp only [hj, and_self, if_true]
      cases hlk : mapGet h.rooms (roomKey (ostr client.app) (ostr client.room)) with
      | none => exact Or.inl rfl
      | some members =>
        by_cases hemp : (setDel members id).isEmpty
        · exact Or.inr ⟨_, members, hlk, Or.inl (by simp [hemp])⟩
        · refine Or.inr ⟨_, members, hlk, Or.inr ⟨?_, by simp [hemp]⟩⟩
          intro hnil
          rw [hnil] at hemp
          exact hemp rfl
    · left

      simp only [if_neg hj]

theorem handleMessage_rooms (N : Nat) (rand : Nat → Nat) (now : Nat) (h : Hub)
    (wsId : JStr) (raw : Option JsVal) :
    (handleMessage N rand now h wsId raw).1.rooms = h.rooms ∨
    ∃ key cid, ((mapGet h.rooms key).getD []).length < N ∧
      (handleMessage N rand now h wsId raw).1.rooms =
        mapSet h.rooms key (setAdd ((mapGet h.rooms key).getD []) cid) := by
  unfold handleMessage
  cases hcl : mapGet h.clients wsId with
  | none => exact Or.inl rfl
  | some client =>
    cases raw with
    | none => exact Or.inl rfl
    | some msg =>
      by_cases hj : otruthy client.app = true ∧ otruthy client.room = true
      · simp only [hj, and_self, if_true]
        exact Or.inl (hjcm_rooms rand now h wsId client msg)
      · simp only [if_neg hj]
        rcases handleFirstJoin_rooms N rand now h wsId client msg with h1 | ⟨key, hlen, he⟩
        · exact Or.inl h1
        · exact Or.inr ⟨key, client.id, hlen, he⟩

theorem setAdd_length_le (l : List JStr) (x : JStr) :
    (setAdd l x).length ≤ l.length + 1 := by
  unfold setAdd
  split <;> simp

theorem setAdd_ne_nil (l : List JStr) (x : JStr) : setAdd l x ≠ [] := by
  unfold setAdd
  split
  · next hmem =>
    intro hnil
    rw [hnil] at hmem
    simp at hmem
  · simp

theorem setDel_length_le (l : List JStr) (x : JStr) :
    (setDel l x).length ≤ l.length :=
  List.length_filter_le _ _

/-- The per-room structural invariant behind C1 and C6: every stored member
set respects the capacity bound and is nonempty. -/
def RoomsOk (N : Nat) (h : Hub) : Prop :=
  ∀ k ms, mapGet h.rooms k = some ms → ms.length ≤ N ∧ ms ≠ []

theorem step_rooms_evolution {N : Nat} {h h' : Hub} (hs : Step N h h') :
    h'.rooms = h.rooms ∨
    (∃ key cid, ((mapGet h.rooms key).getD []).length < N ∧
      h'.rooms = mapSet h.rooms key (setAdd ((mapGet h.rooms key).getD []) cid)) ∨
    (∃ key members cid, mapGet h.rooms key = some members ∧
      (h'.rooms = mapDel h.rooms key ∨
       (setDel members cid ≠ [] ∧
        h'.rooms = mapSet h.rooms key (setDel members cid)))) := by
  cases hs with
  | accept id hne hfresh hmem => exact Or.inl rfl
  | message wsId raw rand now hrand =>
    rcases handleMessage_rooms N rand now h wsId raw with h1 | ⟨key, cid, hlen, he⟩
    · exact Or.inl h1
    · exact Or.inr (Or.inl ⟨key, cid, hlen, he⟩)
  | disconnect id =>
    rcases leaveRoom_rooms h id with h1 | ⟨key, members, hlk, hcase⟩
    · exact Or.inl h1
    · exact Or.inr (Or.inr ⟨key, members, id, hlk, hcase⟩)

theorem step_roomsOk {N : Nat} {h h' : Hub} (hs : Step N h h')
    (hok : RoomsOk N h) : RoomsOk N h' := by
  rcases step_rooms_evolution hs with heq | ⟨key, cid, hlen, he⟩ |
    ⟨key, members, cid, hlk, hcase⟩
  · intro k ms hms
    rw [heq] at hms
    exact hok k ms hms
  · intro k ms hms
    rw [he] at hms
    by_cases hk : k = key
    · subst hk
      rw [mapGet_mapSet_self] at hms
      injection hms with hms'
      subst hms'
      refine ⟨?_, setAdd_ne_nil _ _⟩
      have := setAdd_length_le ((mapGet h.rooms k).getD []) cid
      omega
    · rw [mapGet_mapSet_ne _ _ hk] at hms
      exact hok k ms hms
  · intro k ms hms
    rcases hcase with hdel | ⟨hne, hset⟩
    · rw [hdel] at hms
      by_cases hk : k = key
      · subst hk
        rw [mapGet_mapDel_self] at hms
        cases hms
      · rw [mapGet_mapDel_ne _ hk] at hms
        exact hok k ms hms
    · rw [hset] at hms
      by_cases hk : k = key
      · subst hk
        rw [mapGet_mapSet_self] at hms
        injection hms with hms'
        subst hms'
        refine ⟨?_, hne⟩
        have h1 := setDel_length_le members cid
        have h2 := (hok _ members hlk).1
        omega
      · rw [mapGet_mapSet_ne _ _ hk] at hms
        exact hok k ms hms

theorem reachable_roomsOk {N : Nat} {h : Hub} (hr : Reachable N h) :
    RoomsOk N h := by
  induction hr with
  | init =>
    intro k ms hms
    simp [mapGet] at hms
  | step _ hs ih => exact step_roomsOk hs ih

/-! ## C1: room capacity -/

/-- C1: with the maximum room size `N ≥ 2` held fixed, a join into a room at
or above `N` members is rejected with `room-full` carrying `N` and mutates
nothing; a join into a room below `N` members with valid names is accepted
(the first emitted message is its `welcome` and the client is inserted); and
along every reachable execution no stored member set ever exceeds `N`. -/
theorem C1_room_capacity (N : Nat) (hN : 2 ≤ N) :
    (∀ (rand : Nat → Nat) (now : Nat) (h : Hub) (wsId : JStr) (c : Client)
        (app room : JStr) (metaV : JsVal),
      mapGet h.clients wsId = some c →
      ¬ (otruthy c.app = true ∧ otruthy c.room = true) →
      validChannelNameStr app = true → validChannelNameStr room = true →
      (N ≤ ((mapGet h.rooms (roomKey app room)).getD []).length →
        handleMessage N rand now h wsId
            (some (joinMsg (.vstr app) (.vstr room) metaV)) =
          (h, [OutMsg.errRoomFull c.id N])) ∧
      (((mapGet h.rooms (roomKey app room)).getD []).length < N →
        mapGet (handleMessage N rand now h wsId
            (some (joinMsg (.vstr app) (.vstr room) metaV))).1.rooms
            (roomKey app room) =
          some (setAdd ((mapGet h.rooms (roomKey app room)).getD []) c.id) ∧
        ∃ pm rest,
          (handleMessage N rand now h wsId
              (some (joinMsg (.vstr app) (.vstr room) metaV))).2 =
            OutMsg.welcome c.id c.id app room
              ((mapGet h.rooms (roomKey app room)).getD []) pm
              (joinedMeta h rand now c app room metaV) N :: rest)) ∧
    (∀ h, Reachable N h → ∀ k ms, mapGet h.rooms k = some ms → ms.length ≤ N) := by
  constructor
  · intro rand now h wsId c app room metaV hlook hunj hva hvr
    constructor
    · intro hfull
      rw [handleMessage_unjoined hlook hunj,
        handleFirstJoin_room_full N rand now h wsId c app room metaV hva hvr hfull]
    · intro hcap
      rw [handleMessage_unjoined hlook hunj,
        handleFirstJoin_success N rand now h wsId c app room metaV
          (roomKey app room) _ _ _ hva hvr rfl rfl hcap rfl rfl]
      exact ⟨mapGet_mapSet_self _ _ _, _, _, rfl⟩
  · intro h hr k ms hms
    exact (reachable_roomsOk hr k ms hms).1

/-- Fixture: joined client `B` in room `app::r1`. -/
def wB : Client :=
  ⟨"B".data, some "app".data, some "r1".data, some ⟨"Bob".data, "lobby".data⟩⟩

/-- Fixture: a not-yet-joined client `C`. -/
def wC : Client := ⟨"C".data, none, none, none⟩

/-- Fixture: room `app::r1` full at two members, plus an unjoined `C`. -/
def wHubFull : Hub :=
  ⟨[("app::r1".data, ["A".data, "B".data])],
   [("A".data, wA), ("B".data, wB), ("C".data, wC)]⟩

/-- Witness for C1: with `N = 2`, `C`'s join into the full room is rejected
with `room-full` and the hub is unchanged. -/
theorem C1_room_capacity_witness :
    handleMessage 2 (fun _ => 100) 0 wHubFull "C".data
        (some (joinMsg (.vstr "app".data) (.vstr "r1".data) .vundef)) =
      (wHubFull, [OutMsg.errRoomFull "C".data 2]) := by
  have := ((C1_room_capacity 2 (by decide)).1 (fun _ => 100) 0 wHubFull
    "C".data wC "app".data "r1".data .vundef rfl (by decide) (by decide)
    (by decide)).1 (by decide)
  exact this

/-! ## C6: a room key exists iff its member set is nonempty -/

theorem step_roomsNonempty {N : Nat} {h h' : Hub} (hs : Step N h h')
    (hok : ∀ k ms, mapGet h.rooms k = some ms → ms ≠ []) :
    ∀ k ms, mapGet h'.rooms k = some ms → ms ≠ [] := by
  rcases step_rooms_evolution hs with heq | ⟨key, cid, hlen, he⟩ |
    ⟨key, members, cid, hlk, hcase⟩
  · intro k ms hms
    rw [heq] at hms
    exact hok k ms hms
  · intro k ms hms
    rw [he] at hms
    by_cases hk : k = key
    · subst hk
      rw [mapGet_mapSet_self] at hms
      injection hms with hms'
      subst hms'
      exact setAdd_ne_nil _ _
    · rw [mapGet_mapSet_ne _ _ hk] at hms
      exact hok k ms hms
  · intro k ms hms
    rcases hcase with hdel | ⟨hne, hset⟩
    · rw [hdel] at hms
      by_cases hk : k = key
      · subst hk
        rw [mapGet_mapDel_self] at hms
        cases hms
      · rw [mapGet_mapDel_ne _ hk] at hms
        exact hok k ms hms
    · rw [hset] at hms
      by_cases hk : k = key
      · subst hk
        rw [mapGet_mapSet_self] at hms
        injection hms with hms'
        subst hms'
        exact hne
      · rw [mapGet_mapSet_ne _ _ hk] at hms
        exact hok k ms hms

/-- C6: in every reachable state a stored room entry has a nonempty member
set (so a key is present iff its member set is nonempty), and every single
operation preserves this — an emptied room is deleted in the same step. -/
theorem C6_no_empty_room (N : Nat) :
    (∀ h, Reachable N h → ∀ k ms, mapGet h.rooms k = some ms → ms ≠ []) ∧
    (∀ h h', Step N h h' →
      (∀ k ms, mapGet h.rooms k = some ms → ms ≠ []) →
      ∀ k ms, mapGet h'.rooms k = some ms → ms ≠ []) := by
  constructor
  · intro h hr k ms hms
    exact (reachable_roomsOk hr k ms hms).2
  · intro h h' hs hok
    exact step_roomsNonempty hs hok

/-- Witness for C6: after `A` leaves the two-member room, the stored set is
exactly `[B]`, and the theorem's step-preservation applies to that step. -/
theorem C6_no_empty_room_witness :
    mapGet (leaveRoom wHubFull "A".data).1.rooms "app::r1".data =
      some ["B".data] ∧ ["B".data] ≠ ([] : List JStr) := by
  have hok : ∀ k ms, mapGet wHubFull.rooms k = some ms → ms ≠ [] := by
    intro k ms hms
    simp only [wHubFull, mapGet] at hms
    split at hms
    · cases hms
      decide
    · cases hms
  have hms : mapGet (leaveRoom wHubFull "A".data).1.rooms "app::r1".data =
      some ["B".data] := by rfl
  exact ⟨hms, (C6_no_empty_room 2).2 wHubFull (leaveRoom wHubFull "A".data).1
    (Step.disconnect wHubFull "A".data) hok "app::r1".data ["B".data] hms⟩

/-! ## Used-name set characterization -/

theorem mem_insert_dedup {acc : List JStr} {lw x : JStr} :
    x ∈ (if lw ∈ acc then acc else acc ++ [lw]) ↔ x ∈ acc ∨ x = lw := by
  split
  · next hin =>
    constructor
    · exact Or.inl
    · rintro (hx | rfl)
      · exact hx
      · exact hin
  · simp

theorem mem_collectUsed {clients : List (JStr × Client)} {ig : Option JStr} :
    ∀ {l acc : List JStr} {x : JStr},
    x ∈ collectUsed clients ig acc l ↔
      x ∈ acc ∨ ∃ m, m ∈ l ∧ ¬ (otruthy ig = true ∧ ig = some m) ∧
        ∃ c mm, mapGet clients m = some c ∧ c.meta = some mm ∧ mm.name ≠ [] ∧
          jsToLower mm.name = x := by
  intro l
  induction l with
  | nil => simp [collectUsed]
  | cons m rest ih =>
    intro acc x
    show x ∈ (if otruthy ig = true ∧ ig = some m then _ else _) ↔ _
    by_cases hig : otruthy ig = true ∧ ig = some m
    · rw [if_pos hig]
      rw [ih]
      constructor
      · rintro (hx | ⟨m', hm', hnig, hrest⟩)
        · exact Or.inl hx
        · exact Or.inr ⟨m', List.mem_cons_of_mem _ hm', hnig, hrest⟩
      · rintro (hx | ⟨m', hm', hnig, hrest⟩)
        · exact Or.inl hx
        · rcases List.mem_cons.mp hm' with rfl | hm''
          · exact absurd hig hnig
          · exact Or.inr ⟨m', hm'', hnig, hrest⟩
    · rw [if_neg hig]
      cases hc : mapGet clients m with
      | none =>
        dsimp only
        rw [ih]
        constructor
        · rintro (hx | ⟨m', hm', hnig, hrest⟩)
          · exact Or.inl hx
          · exact Or.inr ⟨m', List.mem_cons_of_mem _ hm', hnig, hrest⟩
        · rintro (hx | ⟨m', hm', hnig, c, mm, hc', hrest⟩)
          · exact Or.inl hx
          · rcases List.mem_cons.mp hm' with rfl | hm''
            · rw [hc] at hc'
              cases hc'
            · exact Or.inr ⟨m', hm'', hnig, c, mm, hc', hrest⟩
      | some member =>
        dsimp only
        cases hmm : member.meta with
        | none =>
          dsimp only
          rw [ih]
          constructor
          · rintro (hx | ⟨m', hm', hnig, hrest⟩)
            · exact Or.inl hx
            · exact Or.inr ⟨m', List.mem_cons_of_mem _ hm', hnig, hrest⟩
          · rintro (hx | ⟨m', hm', hnig, c, mm, hc', hmm', hrest⟩)
            · exact Or.inl hx
            · rcases List.mem_cons.mp hm' with rfl | hm''
              · rw [hc] at hc'
                cases hc'
                rw [hmm] at hmm'
                cases hmm'
              · exact Or.inr ⟨m', hm'', hnig, c, mm, hc', hmm', hrest⟩
        | some mm =>
          dsimp only
          by_cases hname : mm.name = []
          · rw [if_pos hname, ih]
            constructor
            · rintro (hx | ⟨m', hm', hnig, hrest⟩)
              · exact Or.inl hx
              · exact Or.inr ⟨m', List.mem_cons_of_mem _ hm', hnig, hrest⟩
            · rintro (hx | ⟨m', hm', hnig, c, mm', hc', hmm', hnm', hrest⟩)
              · exact Or.inl hx
              · rcases List.mem_cons.mp hm' with rfl | hm''
                · rw [hc] at hc'
                  cases hc'
                  rw [hmm] at hmm'
                  cases hmm'
                  exact absurd hname hnm'
                · exact Or.inr ⟨m', hm'', hnig, c, mm', hc', hmm', hnm', hrest⟩
          · rw [if_neg hname, ih]
            constructor
            · rintro (hx | ⟨m', hm', hnig, hrest⟩)
              · rcases mem_insert_dedup.mp hx with hx' | rfl
                · exact Or.inl hx'
                · exact Or.inr ⟨m, List.mem_cons_self _ _, hig, member, mm, hc,
                    hmm, hname, rfl⟩
              · exact Or.inr ⟨m', List.mem_cons_of_mem _ hm', hnig, hrest⟩
            · rintro (hx | ⟨m', hm', hnig, c, mm', hc', hmm', hnm', hrest⟩)
              · exact Or.inl (mem_insert_dedup.mpr (Or.inl hx))
              · rcases List.mem_cons.mp hm' with rfl | hm''
                · rw [hc] at hc'
                  cases hc'
                  rw [hmm] at hmm'
                  cases hmm'
                  exact Or.inl (mem_insert_dedup.mpr (Or.inr hrest.symm))
                · exact Or.inr ⟨m', hm'', hnig, c, mm', hc', hmm', hnm', hrest⟩

theorem collectUsed_length {clients : List (JStr × Client)} {ig : Option JStr} :
    ∀ (l acc : List JStr),
    (collectUsed clients ig acc l).length ≤ acc.length + l.length := by
  intro l
  induction l with
  | nil => simp [collectUsed]
  | cons m rest ih =>
    intro acc
    simp only [collectUsed]
    by_cases hig : otruthy ig = true ∧ ig = some m
    · rw [if_pos hig]
      have := ih acc
      simp only [List.length_cons]
      omega
    · rw [if_neg hig]
      cases hc : mapGet clients m with
      | none =>
        dsimp only
        have := ih acc
        simp only [List.length_cons]
        omega
      | some member =>
        dsimp only
        cases hmm : member.meta with
        | none =>
          dsimp only
          have := ih acc
          simp only [List.length_cons]
          omega
        | some mm =>
          dsimp only
          by_cases hname : mm.name = []
          · rw [if_pos hname]
            have := ih acc
            simp only [List.length_cons]
            omega
          · rw [if_neg hname]
            have h1 := ih (if jsToLower mm.name ∈ acc then acc else acc ++ [jsToLower mm.name])
            have h2 : (if jsToLower mm.name ∈ acc then acc
                else acc ++ [jsToLower mm.name]).length ≤ acc.length + 1 := by
              split <;> simp
            simp only [List.length_cons]
            omega

theorem collectUsed_length_excl {clients : List (JStr × Client)} {ex : JStr}
    (hex : otruthy (some ex) = true) :
    ∀ (l acc : List JStr), ex ∈ l →
    (collectUsed clients (some ex) acc l).length ≤ acc.length + l.length - 1 := by
  intro l
  induction l with
  | nil => intro acc hmem; simp at hmem
  | cons m rest ih =>
    intro acc hmem
    simp only [collectUsed]
    by_cases hm : ex = m
    · rw [if_pos ⟨hex, by rw [hm]⟩]
      have := @collectUsed_length clients (some ex) rest acc
      simp only [List.length_cons]
      omega
    · have hrest : ex ∈ rest := by
        rcases List.mem_cons.mp hmem with rfl | hr
        · exact absurd rfl hm
        · exact hr
      rw [if_neg (by rintro ⟨_, he⟩; exact hm (Option.some.inj he))]
      cases hc : mapGet clients m with
      | none =>
        dsimp only
        have := ih acc hrest
        simp only [List.length_cons]
        omega
      | some member =>
        dsimp only
        cases hmm : member.meta with
        | none =>
          dsimp only
          have := ih acc hrest
          simp only [List.length_cons]
          omega
        | some mm =>
          dsimp only
          by_cases hname : mm.name = []
          · rw [if_pos hname]
            have := ih acc hrest
            simp only [List.length_cons]
            omega
          · rw [if_neg hname]
            have h1 := ih (if jsToLower mm.name ∈ acc then acc
              else acc ++ [jsToLower mm.name]) hrest
            have h2 : (if jsToLower mm.name ∈ acc then acc
                else acc ++ [jsToLower mm.name]).length ≤ acc.length + 1 := by
              split <;> simp
            have h3 : rest.length ≥ 1 := List.length_pos.mpr
              (List.ne_nil_of_mem hrest)
            simp only [List.length_cons]
            omega

/-! ## Allocator freshness when the used-name set is small -/

theorem jsToLower_base_natDec (base : JStr) (n : Nat) :
    jsToLower (base ++ natDec n) = jsToLower base ++ natDec n := by
  rw [jsToLower_append, jsToLower_natDec]

/-- With fewer than 9998 used names the sequential phase cannot exhaust, so
the allocator never reaches the unchecked timestamp fallback: its result is
fresh. -/
theorem uniqueNameFrom_fresh_of_small {rand : Nat → Nat} {now : Nat}
    {base : JStr} {used : List JStr} (hlen : used.length < 9998) :
    jsToLower (uniqueNameFrom rand now base used) ∉ used := by
  by_cases hmem : jsToLower base ∈ used
  · cases hr : tryRandomFrom rand base used 500 0 with
    | some c =>
      rw [uniqueNameFrom_rand hmem hr]
      exact (tryRandomFrom_some 500 0 hr).1
    | none =>
      cases hs : trySeqFrom base used 2 with
      | some c =>
        rw [uniqueNameFrom_seq hmem hr hs]
        exact (trySeqFrom_some hs).1
      | none =>
        exfalso
        have hall := trySeqFrom_none hs
        have hsub : ((List.range' 2 9998).map
            (fun n => jsToLower base ++ natDec n)) ⊆ used := by
          intro x hx
          rcases List.mem_map.mp hx with ⟨n, hn, rfl⟩
          have hb := List.mem_range'_1.mp hn
          have := hall n hb.1 (by omega)
          rwa [jsToLower_base_natDec] at this
        have hnd : ((List.range' 2 9998).map
            (fun n => jsToLower base ++ natDec n)).Nodup := by
          refine List.Nodup.map_on ?_ (List.nodup_range' 2 9998)
          intro a _ b _ heq
          exact natDec_injective (List.append_cancel_left heq)
        have hle := (hnd.subperm hsub).length_le
        rw [List.length_map, List.length_range'] at hle
        omega
  · rw [uniqueNameFrom_fresh hmem]
    exact hmem

theorem normalizeDisplayNameStr_ne_nil (s : JStr) :
    normalizeDisplayNameStr s ≠ [] := by
  unfold normalizeDisplayNameStr
  dsimp only
  split
  · decide
  · next hne => exact hne

theorem uniqueNameFrom_ne_nil {rand : Nat → Nat} {now : Nat} {base : JStr}
    {used : List JStr} (hbase : base ≠ []) :
    uniqueNameFrom rand now base used ≠ [] := by
  by_cases hmem : jsToLower base ∈ used
  · cases hr : tryRandomFrom rand base used 500 0 with
    | some c =>
      rw [uniqueNameFrom_rand hmem hr]
      obtain ⟨_, j, _, _, hc⟩ := tryRandomFrom_some 500 0 hr
      rw [hc]
      simp [hbase]
    | none =>
      cases hs : trySeqFrom base used 2 with
      | some c =>
        rw [uniqueNameFrom_seq hmem hr hs]
        obtain ⟨_, k, _, _, hc⟩ := trySeqFrom_some hs
        rw [hc]
        simp [hbase]
      | none =>
        rw [uniqueNameFrom_fallback hmem hr hs]
        simp [hbase]
  · rw [uniqueNameFrom_fresh hmem]
    exact hbase

/-! ## Registry well-formedness and per-room name uniqueness -/

/-- Structural well-formedness of the registries: stored client ids match
their keys and are nonempty (UUIDs), member sets are duplicate-free and obey
the capacity bound, each member is a joined client of exactly that room with
metadata, and each joined client is a member of its room. -/
structure WF (N : Nat) (h : Hub) : Prop where
  clientId : ∀ i c, mapGet h.clients i = some c → c.id = i ∧ i ≠ []
  membersNodup : ∀ k ms, mapGet h.rooms k = some ms → ms.Nodup
  memberClient : ∀ k ms, mapGet h.rooms k = some ms → ∀ m ∈ ms,
    ∃ c, mapGet h.clients m = some c ∧ otruthy c.app = true ∧
      otruthy c.room = true ∧ roomKey (ostr c.app) (ostr c.room) = k ∧
      c.meta.isSome = true
  joinedMember : ∀ i c, mapGet h.clients i = some c →
    otruthy c.app = true → otruthy c.room = true →
    ∃ ms, mapGet h.rooms (roomKey (ostr c.app) (ostr c.room)) = some ms ∧ i ∈ ms
  sizeBound : ∀ k ms, mapGet h.rooms k = some ms → ms.length ≤ N

/-- The lower-cased display name a member id currently resolves to. -/
def lowName (h : Hub) (m : JStr) : Option JStr :=
  ((mapGet h.clients m).bind Client.meta).map fun mm => jsToLower mm.name

/-- C2's invariant: within every stored room, no two distinct members share a
lower-cased display name. -/
def NamesUnique (h : Hub) : Prop :=
  ∀ k ms, mapGet h.rooms k = some ms →
    ms.Pairwise fun a b => ∀ x, lowName h a = some x → lowName h b ≠ some x

theorem unjoined_not_member {N : Nat} {h : Hub} {i : JStr} {c : Client}
    (hwf : WF N h) (hlook : mapGet h.clients i = some c)
    (hunj : ¬ (otruthy c.app = true ∧ otruthy c.room = true)) :
    ∀ k ms, mapGet h.rooms k = some ms → i ∉ ms := by
  intro k ms hms hmem
  obtain ⟨c', hc', ha, hr, _, _⟩ := hwf.memberClient k ms hms i hmem
  rw [hlook] at hc'
  cases hc'
  exact hunj ⟨ha, hr⟩

theorem member_only_its_room {N : Nat} {h : Hub} {i : JStr} {c : Client}
    (hwf : WF N h) (hlook : mapGet h.clients i = some c)
    {k : JStr} {ms : List JStr} (hms : mapGet h.rooms k = some ms)
    (hmem : i ∈ ms) : roomKey (ostr c.app) (ostr c.room) = k := by
  obtain ⟨c', hc', _, _, hk, _⟩ := hwf.memberClient k ms hms i hmem
  rw [hlook] at hc'
  cases hc'
  exact hk

theorem lowName_clients_eq {h1 h2 : Hub} {m : JStr}
    (he : mapGet h1.clients m = mapGet h2.clients m) :
    lowName h1 m = lowName h2 m := by
  unfold lowName
  rw [he]

/-! ## Per-operation state shapes -/

theorem handleSetMeta_state (rand : Nat → Nat) (now : Nat) (h : Hub)
    (wsId : JStr) (c : Client) (patch : JsVal) :
    (handleSetMeta rand now h wsId c patch).1 = h ∨
    ∃ nm : Meta, (handleSetMeta rand now h wsId c patch).1 =
        ⟨h.rooms, mapSet h.clients wsId { c with meta := some nm }⟩ ∧
      (nm.name = (c.meta.map Meta.name).getD "Player".data ∨
       nm.name = uniqueName h rand now
         (normalizeDisplayName (getField patch "name".data))
         (roomKey (ostr c.app) (ostr c.room)) (some c.id)) := by
  cases patch with
  | vobj fields =>
    rw [handleSetMeta_obj_eq]
    dsimp only
    by_cases hnm : ((fields.lookup "name".data).isSome : Bool)
    · rw [if_pos hnm]
      exact Or.inr ⟨_, rfl, Or.inr rfl⟩
    · rw [if_neg hnm]
      exact Or.inr ⟨_, rfl, Or.inl rfl⟩
  | vstr s => exact Or.inl rfl
  | vnum n => exact Or.inl rfl
  | vbool b => exact Or.inl rfl
  | vnull => exact Or.inl rfl
  | vundef => exact Or.inl rfl

theorem hjcm_state (rand : Nat → Nat) (now : Nat) (h : Hub) (wsId : JStr)
    (c : Client) (msg : JsVal) :
    (handleJoinedClientMessage rand now h wsId c msg).1 = h ∨
    ∃ nm : Meta, (handleJoinedClientMessage rand now h wsId c msg).1 =
        ⟨h.rooms, mapSet h.clients wsId { c with meta := some nm }⟩ ∧
      (nm.name = (c.meta.map Meta.name).getD "Player".data ∨
       ∃ patch, nm.name = uniqueName h rand now
         (normalizeDisplayName (getField patch "name".data))
         (roomKey (ostr c.app) (ostr c.room)) (some c.id)) := by
  unfold handleJoinedClientMessage
  repeat' split
  all_goals try exact Or.inl rfl
  rcases handleSetMeta_state rand now h wsId c (getField msg "patch".data) with
    h1 | ⟨nm, he, hname⟩
  · exact Or.inl h1
  · refine Or.inr ⟨nm, he, ?_⟩
    rcases hname with h2 | h2
    · exact Or.inl h2
    · exact Or.inr ⟨getField msg "patch".data, h2⟩

theorem handleFirstJoin_state (N : Nat) (rand : Nat → Nat) (now : Nat)
    (h : Hub) (wsId : JStr) (c : Client) (msg : JsVal) :
    (handleFirstJoin N rand now h wsId c msg).1 = h ∨
    ∃ app room, validChannelNameStr app = true ∧ validChannelNameStr room = true ∧
      ((mapGet h.rooms (roomKey app room)).getD []).length < N ∧
      (handleFirstJoin N rand now h wsId c msg).1 =
        ⟨mapSet h.rooms (roomKey app room)
           (setAdd ((mapGet h.rooms (roomKey app room)).getD []) c.id),
         mapSet h.clients wsId (joinedClient c app room
           (joinedMeta h rand now c app room (getField msg "meta".data)))⟩ := by
  unfold handleFirstJoin
  split
  · exact Or.inl rfl
  · split
    · next app room heqa heqr =>
      dsimp only
      split
      · next hval =>
        split
        · exact Or.inl rfl
        · next hcap =>
          exact Or.inr ⟨app, room, hval.1, hval.2, Nat.lt_of_not_le hcap, rfl⟩
      · exact Or.inl rfl
    · exact Or.inl rfl

theorem leaveRoom_state (h : Hub) (id : JStr) :
    (leaveRoom h id).1 = h ∨
    ∃ c, mapGet h.clients id = some c ∧
      (leaveRoom h id).1.clients = mapDel h.clients id ∧
      (((leaveRoom h id).1.rooms = h.rooms ∧
        (¬ (otruthy c.app = true ∧ otruthy c.room = true) ∨
         mapGet h.rooms (roomKey (ostr c.app) (ostr c.room)) = none)) ∨
       ∃ members, otruthy c.app = true ∧ otruthy c.room = true ∧
         mapGet h.rooms (roomKey (ostr c.app) (ostr c.room)) = some members ∧
         ((setDel members id = [] ∧
           (leaveRoom h id).1.rooms =
             mapDel h.rooms (roomKey (ostr c.app) (ostr c.room))) ∨
          (setDel members id ≠ [] ∧
           (leaveRoom h id).1.rooms =
             mapSet h.rooms (roomKey (ostr c.app) (ostr c.room))
               (setDel members id)))) := by
  cases hcl : mapGet h.clients id with
  | none =>
    left
    unfold leaveRoom
    rw [hcl]
  | some client =>
    refine Or.inr ⟨client, rfl, ?_, ?_⟩
    · unfold leaveRoom
      rw [hcl]
    · by_cases hj : otruthy client.app = true ∧ otruthy client.room = true
      · cases hlk : mapGet h.rooms (roomKey (ostr client.app) (ostr client.room)) with
        | none =>
          refine Or.inl ⟨?_, Or.inr rfl⟩
          unfold leaveRoom
          rw [hcl]
          dsimp only
          rw [if_pos hj, hlk]
        | some members =>
          by_cases hemp : (setDel members id).isEmpty
          · refine Or.inr ⟨members, hj.1, hj.2, rfl,
              Or.inl ⟨List.isEmpty_iff.mp hemp, ?_⟩⟩
            unfold leaveRoom
            rw [hcl]
            dsimp only
            rw [if_pos hj, hlk]
            dsimp only
            rw [if_pos hemp]
          · refine Or.inr ⟨members, hj.1, hj.2, rfl, Or.inr ⟨?_, ?_⟩⟩
            · intro hnil
              rw [hnil] at hemp
              exact hemp rfl
            · unfold leaveRoom
              rw [hcl]
              dsimp only
              rw [if_pos hj, hlk]
              dsimp only
              rw [if_neg hemp]
      · refine Or.inl ⟨?_, Or.inl hj⟩
        unfold leaveRoom
        rw [hcl]
        dsimp only
        rw [if_neg hj]

/-! ## Member-set and name helpers for the preservation proofs -/

theorem setAdd_eq_append {l : List JStr} {x : JStr} (hx : x ∉ l) :
    setAdd l x = l ++ [x] := if_neg hx

theorem mem_setAdd_self (l : List JStr) (x : JStr) : x ∈ setAdd l x := by
  unfold setAdd
  split
  · assumption
  · simp

theorem mem_setAdd_of_mem {l : List JStr} {y : JStr} (x : JStr) (hy : y ∈ l) :
    y ∈ setAdd l x := by
  unfold setAdd
  split
  · exact hy
  · exact List.mem_append_left _ hy

theorem mem_setDel_iff {l : List JStr} {x y : JStr} :
    y ∈ setDel l x ↔ y ∈ l ∧ y ≠ x := by
  simp [setDel, List.mem_filter]

theorem setDel_nodup {l : List JStr} (hl : l.Nodup) (x : JStr) :
    (setDel l x).Nodup := hl.filter _

theorem valid_otruthy {s : JStr} (hv : validChannelNameStr s = true) :
    otruthy (some s) = true := by
  simp only [validChannelNameStr, Bool.and_eq_true] at hv
  simp only [otruthy]
  exact (Bool.not_eq_true' _).symm ▸ hv.1.1

/-! ## WF preservation -/

theorem accept_WF {N : Nat} {h : Hub} {id : JStr} (hwf : WF N h)
    (hne : id ≠ []) (hfresh : mapGet h.clients id = none)
    (hmem : ∀ k ms, mapGet h.rooms k = some ms → id ∉ ms) :
    WF N (acceptClient h id) := by
  constructor
  · intro i c hc
    by_cases hi : i = id
    · subst hi
      rw [show (acceptClient h i).clients = mapSet h.clients i ⟨i, none, none, none⟩
          from rfl, mapGet_mapSet_self] at hc
      cases hc
      exact ⟨rfl, hne⟩
    · rw [show (acceptClient h id).clients = mapSet h.clients id ⟨id, none, none, none⟩
          from rfl, mapGet_mapSet_ne _ _ hi] at hc
      exact hwf.clientId i c hc
  · exact hwf.membersNodup
  · intro k ms hms m hm
    obtain ⟨c, hc, hprops⟩ := hwf.memberClient k ms hms m hm
    have hmi : m ≠ id := fun he => hmem k ms hms (he ▸ hm)
    refine ⟨c, ?_, hprops⟩
    rw [show (acceptClient h id).clients = mapSet h.clients id ⟨id, none, none, none⟩
        from rfl, mapGet_mapSet_ne _ _ hmi]
    exact hc
  · intro i c hc ha hr
    by_cases hi : i = id
    · subst hi
      rw [show (acceptClient h i).clients = mapSet h.clients i ⟨i, none, none, none⟩
          from rfl, mapGet_mapSet_self] at hc
      cases hc
      simp [otruthy] at ha
    · rw [show (acceptClient h id).clients = mapSet h.clients id ⟨id, none, none, none⟩
          from rfl, mapGet_mapSet_ne _ _ hi] at hc
      exact hwf.joinedMember i c hc ha hr
  · exact hwf.sizeBound

theorem metaUpdate_WF {N : Nat} {h : Hub} {wsId : JStr} {c : Client}
    (hwf : WF N h) (hlook : mapGet h.clients wsId = some c) (nm : Meta) :
    WF N ⟨h.rooms, mapSet h.clients wsId { c with meta := some nm }⟩ := by
  have hid := hwf.clientId wsId c hlook
  constructor
  · intro i c' hc
    by_cases hi : i = wsId
    · subst hi
      rw [show (Hub.mk h.rooms (mapSet h.clients i { c with meta := some nm })).clients
          = mapSet h.clients i { c with meta := some nm } from rfl,
        mapGet_mapSet_self] at hc
      cases hc
      exact ⟨hid.1, hid.2⟩
    · rw [show (Hub.mk h.rooms (mapSet h.clients wsId { c with meta := some nm })).clients
          = mapSet h.clients wsId { c with meta := some nm } from rfl,
        mapGet_mapSet_ne _ _ hi] at hc
      exact hwf.clientId i c' hc
  · exact hwf.membersNodup
  · intro k ms hms m hm
    obtain ⟨c', hc', ha, hr, hk, hmeta⟩ := hwf.memberClient k ms hms m hm
    by_cases hi : m = wsId
    · subst hi
      rw [hlook] at hc'
      cases hc'
      exact ⟨{ c with meta := some nm }, mapGet_mapSet_self _ _ _, ha, hr, hk, rfl⟩
    · exact ⟨c', by rw [show (Hub.mk h.rooms
        (mapSet h.clients wsId { c with meta := some nm })).clients
          = mapSet h.clients wsId { c with meta := some nm } from rfl,
        mapGet_mapSet_ne _ _ hi]; exact hc', ha, hr, hk, hmeta⟩
  · intro i c' hc ha hr
    by_cases hi : i = wsId
    · subst hi
      rw [show (Hub.mk h.rooms (mapSet h.clients i { c with meta := some nm })).clients
          = mapSet h.clients i { c with meta := some nm } from rfl,
        mapGet_mapSet_self] at hc
      cases hc
      exact hwf.joinedMember i c hlook ha hr
    · rw [show (Hub.mk h.rooms (mapSet h.clients wsId { c with meta := some nm })).clients
          = mapSet h.clients wsId { c with meta := some nm } from rfl,
        mapGet_mapSet_ne _ _ hi] at hc
      exact hwf.joinedMember i c' hc ha hr
  · exact hwf.sizeBound

theorem delClient_WF {N : Nat} {h : Hub} {clientId : JStr} (hwf : WF N h)
    (hnomem : ∀ k ms, mapGet h.rooms k = some ms → clientId ∉ ms) :
    WF N ⟨h.rooms, mapDel h.clients clientId⟩ := by
  constructor
  · intro i c hc
    by_cases hi : i = clientId
    · subst hi
      rw [show (Hub.mk h.rooms (mapDel h.clients i)).clients = mapDel h.clients i
          from rfl, mapGet_mapDel_self] at hc
      cases hc
    · rw [show (Hub.mk h.rooms (mapDel h.clients clientId)).clients
          = mapDel h.clients clientId from rfl, mapGet_mapDel_ne _ hi] at hc
      exact hwf.clientId i c hc
  · exact hwf.membersNodup
  · intro k ms hms m hm
    obtain ⟨c, hc, hprops⟩ := hwf.memberClient k ms hms m hm
    have hmi : m ≠ clientId := fun he => hnomem k ms hms (he ▸ hm)
    exact ⟨c, by rw [show (Hub.mk h.rooms (mapDel h.clients clientId)).clients
      = mapDel h.clients clientId from rfl, mapGet_mapDel_ne _ hmi]; exact hc, hprops⟩
  · intro i c hc ha hr
    by_cases hi : i = clientId
    · subst hi
      rw [show (Hub.mk h.rooms (mapDel h.clients i)).clients = mapDel h.clients i
          from rfl, mapGet_mapDel_self] at hc
      cases hc
    · rw [show (Hub.mk h.rooms (mapDel h.clients clientId)).clients
          = mapDel h.clients clientId from rfl, mapGet_mapDel_ne _ hi] at hc
      exact hwf.joinedMember i c hc ha hr
  · exact hwf.sizeBound

theorem mem_setAdd_iff {l : List JStr} {x y : JStr} :
    y ∈ setAdd l x ↔ y ∈ l ∨ y = x := by
  unfold setAdd
  split
  · next hx =>
    constructor
    · exact Or.inl
    · rintro (hy | rfl)
      · exact hy
      · exact hx
  · simp [List.mem_append]

theorem join_WF {N : Nat} {h : Hub} {wsId : JStr} {c : Client}
    {app room key : JStr} {members : List JStr}
    (hwf : WF N h) (hlook : mapGet h.clients wsId = some c)
    (hunj : ¬ (otruthy c.app = true ∧ otruthy c.room = true))
    (hva : validChannelNameStr app = true) (hvr : validChannelNameStr room = true)
    (hkey : key = roomKey app room)
    (hmembers : members = (mapGet h.rooms key).getD [])
    (hcap : members.length < N) (nm : Meta) :
    WF N ⟨mapSet h.rooms key (setAdd members c.id),
          mapSet h.clients wsId (joinedClient c app room nm)⟩ := by
  obtain ⟨hcid, hne⟩ := hwf.clientId wsId c hlook
  have hnomem : ∀ k ms, mapGet h.rooms k = some ms → c.id ∉ ms := by
    intro k ms hms
    exact hcid ▸ unjoined_not_member hwf hlook hunj k ms hms
  have hmemcases : (mapGet h.rooms key = none ∧ members = []) ∨
      mapGet h.rooms key = some members := by
    cases hlk : mapGet h.rooms key with
    | none => exact Or.inl ⟨rfl, by rw [hmembers, hlk]; rfl⟩
    | some ms0 => right; rw [hmembers, hlk]; rfl
  have hcidmem : c.id ∉ members := by
    rcases hmemcases with ⟨_, he⟩ | he
    · rw [he]; simp
    · exact hnomem key members he
  have hcrooms : (Hub.mk (mapSet h.rooms key (setAdd members c.id))
      (mapSet h.clients wsId (joinedClient c app room nm))).rooms
      = mapSet h.rooms key (setAdd members c.id) := rfl
  have hcclients : (Hub.mk (mapSet h.rooms key (setAdd members c.id))
      (mapSet h.clients wsId (joinedClient c app room nm))).clients
      = mapSet h.clients wsId (joinedClient c app room nm) := rfl
  constructor
  · intro i c' hc
    rw [hcclients] at hc
    by_cases hi : i = wsId
    · subst hi
      rw [mapGet_mapSet_self] at hc
      cases hc
      exact ⟨hcid, hne⟩
    · rw [mapGet_mapSet_ne _ _ hi] at hc
      exact hwf.clientId i c' hc
  · intro k ms hms
    rw [hcrooms] at hms
    by_cases hk : k = key
    · subst hk
      rw [mapGet_mapSet_self] at hms
      cases hms
      rw [setAdd_eq_append hcidmem]
      rcases hmemcases with ⟨_, he⟩ | he
      · rw [he]; simp
      · simp [List.nodup_append, hwf.membersNodup k members he, hcidmem]
    · rw [mapGet_mapSet_ne _ _ hk] at hms
      exact hwf.membersNodup k ms hms
  · intro k ms hms m hm
    rw [hcrooms] at hms
    by_cases hk : k = key
    · subst hk
      rw [mapGet_mapSet_self] at hms
      cases hms
      rcases mem_setAdd_iff.mp hm with hmm | rfl
      · rcases hmemcases with ⟨_, he⟩ | he
        · rw [he] at hmm; cases hmm
        · obtain ⟨c', hc', ha, hr, hk', hmeta⟩ := hwf.memberClient k members he m hmm
          have hmw : m ≠ wsId := by
            intro hmw
            subst hmw
            rw [hlook] at hc'
            cases hc'
            exact hunj ⟨ha, hr⟩
          refine ⟨c', ?_, ha, hr, hk', hmeta⟩
          rw [hcclients, mapGet_mapSet_ne _ _ hmw]
          exact hc'
      · refine ⟨joinedClient c app room nm, ?_, valid_otruthy hva,
          valid_otruthy hvr, ?_, rfl⟩
        · rw [hcclients, hcid, mapGet_mapSet_self]
        · show roomKey app room = k
          exact hkey.symm
    · rw [mapGet_mapSet_ne _ _ hk] at hms
      obtain ⟨c', hc', ha, hr, hk', hmeta⟩ := hwf.memberClient k ms hms m hm
      have hmw : m ≠ wsId := by
        intro hmw
        subst hmw
        rw [hlook] at hc'
        cases hc'
        exact hunj ⟨ha, hr⟩
      refine ⟨c', ?_, ha, hr, hk', hmeta⟩
      rw [hcclients, mapGet_mapSet_ne _ _ hmw]
      exact hc'
  · intro i c' hc ha hr
    rw [hcclients] at hc
    by_cases hi : i = wsId
    · subst hi
      rw [mapGet_mapSet_self] at hc
      cases hc
      refine ⟨setAdd members c.id, ?_, ?_⟩
      · show mapGet (mapSet h.rooms key (setAdd members c.id))
          (roomKey app room) = _
        rw [← hkey, mapGet_mapSet_self]
      · rw [← hcid]
        exact mem_setAdd_self _ _
    · rw [mapGet_mapSet_ne _ _ hi] at hc
      obtain ⟨msi, hmsi, hmemi⟩ := hwf.joinedMember i c' hc ha hr
      by_cases hki : roomKey (ostr c'.app) (ostr c'.room) = key
      · rw [hki] at hmsi
        rcases hmemcases with ⟨hn0, he⟩ | he
        · rw [hn0] at hmsi
          cases hmsi
        · rw [he] at hmsi
          injection hmsi with hmsi'
          subst hmsi'
          refine ⟨setAdd members c.id, ?_, mem_setAdd_of_mem _ hmemi⟩
          rw [hcrooms, hki, mapGet_mapSet_self]
      · refine ⟨msi, ?_, hmemi⟩
        rw [hcrooms, mapGet_mapSet_ne _ _ hki]
        exact hmsi
  · intro k ms hms
    rw [hcrooms] at hms
    by_cases hk : k = key
    · subst hk
      rw [mapGet_mapSet_self] at hms
      injection hms with hms'
      subst hms'
      have := setAdd_length_le members c.id
      omega
    · rw [mapGet_mapSet_ne _ _ hk] at hms
      exact hwf.sizeBound k ms hms

theorem delRoom_WF {N : Nat} {h : Hub} {clientId : JStr} {client : Client}
    {key : JStr} {members : List JStr}
    (hwf : WF N h) (hcl : mapGet h.clients clientId = some client)
    (hkey : key = roomKey (ostr client.app) (ostr client.room))
    (hlk : mapGet h.rooms key = some members)
    (hdel : setDel members clientId = []) :
    WF N ⟨mapDel h.rooms key, mapDel h.clients clientId⟩ := by
  constructor
  · intro i c hc
    by_cases hi : i = clientId
    · subst hi
      rw [show (Hub.mk (mapDel h.rooms key) (mapDel h.clients i)).clients
          = mapDel h.clients i from rfl, mapGet_mapDel_self] at hc
      cases hc
    · rw [show (Hub.mk (mapDel h.rooms key) (mapDel h.clients clientId)).clients
          = mapDel h.clients clientId from rfl, mapGet_mapDel_ne _ hi] at hc
      exact hwf.clientId i c hc
  · intro k ms hms
    by_cases hk : k = key
    · subst hk
      rw [show (Hub.mk (mapDel h.rooms k) (mapDel h.clients clientId)).rooms
          = mapDel h.rooms k from rfl, mapGet_mapDel_self] at hms
      cases hms
    · rw [show (Hub.mk (mapDel h.rooms key) (mapDel h.clients clientId)).rooms
          = mapDel h.rooms key from rfl, mapGet_mapDel_ne _ hk] at hms
      exact hwf.membersNodup k ms hms
  · intro k ms hms m hm
    by_cases hk : k = key
    · subst hk
      rw [show (Hub.mk (mapDel h.rooms k) (mapDel h.clients clientId)).rooms
          = mapDel h.rooms k from rfl, mapGet_mapDel_self] at hms
      cases hms
    · rw [show (Hub.mk (mapDel h.rooms key) (mapDel h.clients clientId)).rooms
          = mapDel h.rooms key from rfl, mapGet_mapDel_ne _ hk] at hms
      obtain ⟨c', hc', ha, hr, hk', hmeta⟩ := hwf.memberClient k ms hms m hm
      have hmi : m ≠ clientId := by
        intro hmi
        subst hmi
        rw [hcl] at hc'
        cases hc'
        rw [← hk'] at hk
        exact hk hkey.symm
      refine ⟨c', ?_, ha, hr, hk', hmeta⟩
      rw [show (Hub.mk (mapDel h.rooms key) (mapDel h.clients clientId)).clients
          = mapDel h.clients clientId from rfl, mapGet_mapDel_ne _ hmi]
      exact hc'
  · intro i c hc ha hr
    by_cases hi : i = clientId
    · subst hi
      rw [show (Hub.mk (mapDel h.rooms key) (mapDel h.clients i)).clients
          = mapDel h.clients i from rfl, mapGet_mapDel_self] at hc
      cases hc
    · rw [show (Hub.mk (mapDel h.rooms key) (mapDel h.clients clientId)).clients
          = mapDel h.clients clientId from rfl, mapGet_mapDel_ne _ hi] at hc
      obtain ⟨msi, hmsi, hmemi⟩ := hwf.joinedMember i c hc ha hr
      by_cases hki : roomKey (ostr c.app) (ostr c.room) = key
      · exfalso
        rw [hki, hlk] at hmsi
        injection hmsi with hmsi'
        subst hmsi'
        have : i ∈ setDel members clientId := mem_setDel_iff.mpr ⟨hmemi, hi⟩
        rw [hdel] at this
        cases this
      · refine ⟨msi, ?_, hmemi⟩
        rw [show (Hub.mk (mapDel h.rooms key) (mapDel h.clients clientId)).rooms
            = mapDel h.rooms key from rfl, mapGet_mapDel_ne _ hki]
        exact hmsi
  · intro k ms hms
    by_cases hk : k = key
    · subst hk
      rw [show (Hub.mk (mapDel h.rooms k) (mapDel h.clients clientId)).rooms
          = mapDel h.rooms k from rfl, mapGet_mapDel_self] at hms
      cases hms
    · rw [show (Hub.mk (mapDel h.rooms key) (mapDel h.clients clientId)).rooms
          = mapDel h.rooms key from rfl, mapGet_mapDel_ne _ hk] at hms
      exact hwf.sizeBound k ms hms

theorem shrinkRoom_WF {N : Nat} {h : Hub} {clientId : JStr} {client : Client}
    {key : JStr} {members : List JStr}
    (hwf : WF N h) (hcl : mapGet h.clients clientId = some client)
    (hkey : key = roomKey (ostr client.app) (ostr client.room))
    (hlk : mapGet h.rooms key = some members) :
    WF N ⟨mapSet h.rooms key (setDel members clientId),
          mapDel h.clients clientId⟩ := by
  constructor
  · intro i c hc
    by_cases hi : i = clientId
    · subst hi
      rw [show (Hub.mk (mapSet h.rooms key (setDel members i))
          (mapDel h.clients i)).clients = mapDel h.clients i from rfl,
        mapGet_mapDel_self] at hc
      cases hc
    · rw [show (Hub.mk (mapSet h.rooms key (setDel members clientId))
          (mapDel h.clients clientId)).clients = mapDel h.clients clientId
          from rfl, mapGet_mapDel_ne _ hi] at hc
      exact hwf.clientId i c hc
  · intro k ms hms
    by_cases hk : k = key
    · subst hk
      rw [show (Hub.mk (mapSet h.rooms k (setDel members clientId))
          (mapDel h.clients clientId)).rooms
          = mapSet h.rooms k (setDel members clientId) from rfl,
        mapGet_mapSet_self] at hms
      injection hms with hms'
      subst hms'
      exact setDel_nodup (hwf.membersNodup k members hlk) clientId
    · rw [show (Hub.mk (mapSet h.rooms key (setDel members clientId))
          (mapDel h.clients clientId)).rooms
          = mapSet h.rooms key (setDel members clientId) from rfl,
        mapGet_mapSet_ne _ _ hk] at hms
      exact hwf.membersNodup k ms hms
  · intro k ms hms m hm
    by_cases hk : k = key
    · subst hk
      rw [show (Hub.mk (mapSet h.rooms k (setDel members clientId))
          (mapDel h.clients clientId)).rooms
          = mapSet h.rooms k (setDel members clientId) from rfl,
        mapGet_mapSet_self] at hms
      injection hms with hms'
      subst hms'
      obtain ⟨hm', hmne⟩ := mem_setDel_iff.mp hm
      obtain ⟨c', hc', ha, hr, hk', hmeta⟩ :=
        hwf.memberClient k members hlk m hm'
      refine ⟨c', ?_, ha, hr, hk', hmeta⟩
      rw [show (Hub.mk (mapSet h.rooms k (setDel members clientId))
          (mapDel h.clients clientId)).clients = mapDel h.clients clientId
          from rfl, mapGet_mapDel_ne _ hmne]
      exact hc'
    · rw [show (Hub.mk (mapSet h.rooms key (setDel members clientId))
          (mapDel h.clients clientId)).rooms
          = mapSet h.rooms key (setDel members clientId) from rfl,
        mapGet_mapSet_ne _ _ hk] at hms
      obtain ⟨c', hc', ha, hr, hk', hmeta⟩ := hwf.memberClient k ms hms m hm
      have hmi : m ≠ clientId := by
        intro hmi
        subst hmi
        rw [hcl] at hc'
        cases hc'
        rw [← hk'] at hk
        exact hk hkey.symm
      refine ⟨c', ?_, ha, hr, hk', hmeta⟩
      rw [show (Hub.mk (mapSet h.rooms key (setDel members clientId))
          (mapDel h.clients clientId)).clients = mapDel h.clients clientId
          from rfl, mapGet_mapDel_ne _ hmi]
      exact hc'
  · intro i c hc ha hr
    by_cases hi : i = clientId
    · subst hi
      rw [show (Hub.mk (mapSet h.rooms key (setDel members i))
          (mapDel h.clients i)).clients = mapDel h.clients i from rfl,
        mapGet_mapDel_self] at hc
      cases hc
    · rw [show (Hub.mk (mapSet h.rooms key (setDel members clientId))
          (mapDel h.clients clientId)).clients = mapDel h.clients clientId
          from rfl, mapGet_mapDel_ne _ hi] at hc
      obtain ⟨msi, hmsi, hmemi⟩ := hwf.joinedMember i c hc ha hr
      by_cases hki : roomKey (ostr c.app) (ostr c.room) = key
      · rw [hki, hlk] at hmsi
        injection hmsi with hmsi'
        subst hmsi'
        refine ⟨setDel members clientId, ?_, mem_setDel_iff.mpr ⟨hmemi, hi⟩⟩
        rw [show (Hub.mk (mapSet h.rooms key (setDel members clientId))
            (mapDel h.clients clientId)).rooms
            = mapSet h.rooms key (setDel members clientId) from rfl,
          hki, mapGet_mapSet_self]
      · refine ⟨msi, ?_, hmemi⟩
        rw [show (Hub.mk (mapSet h.rooms key (setDel members clientId))
            (mapDel h.clients clientId)).rooms
            = mapSet h.rooms key (setDel members clientId) from rfl,
          mapGet_mapSet_ne _ _ hki]
        exact hmsi
  · intro k ms hms
    by_cases hk : k = key
    · subst hk
      rw [show (Hub.mk (mapSet h.rooms k (setDel members clientId))
          (mapDel h.clients clientId)).rooms
          = mapSet h.rooms k (setDel members clientId) from rfl,
        mapGet_mapSet_self] at hms
      injection hms with hms'
      subst hms'
      have h1 := setDel_length_le members clientId
      have h2 := hwf.sizeBound k members hlk
      omega
    · rw [show (Hub.mk (mapSet h.rooms key (setDel members clientId))
          (mapDel h.clients clientId)).rooms
          = mapSet h.rooms key (setDel members clientId) from rfl,
        mapGet_mapSet_ne _ _ hk] at hms
      exact hwf.sizeBound k ms hms

theorem WF_init (N : Nat) : WF N ⟨[], []⟩ := by
  constructor
  · intro i c hc
    simp [mapGet] at hc
  · intro k ms hms
    simp [mapGet] at hms
  · intro k ms hms
    simp [mapGet] at hms
  · intro i c hc
    simp [mapGet] at hc
  · intro k ms hms
    simp [mapGet] at hms

theorem step_WF {N : Nat} {h h' : Hub} (hs : Step N h h') (hwf : WF N h) :
    WF N h' := by
  cases hs with
  | accept id hne hfresh hmem => exact accept_WF hwf hne hfresh hmem
  | message wsId raw rand now hrand =>
    show WF N (handleMessage N rand now h wsId raw).1
    unfold handleMessage
    cases hcl : mapGet h.clients wsId with
    | none => exact hwf
    | some client =>
      cases raw with
      | none => exact hwf
      | some msg =>
        dsimp only
        by_cases hj : otruthy client.app = true ∧ otruthy client.room = true
        · rw [if_pos hj]
          rcases hjcm_state rand now h wsId client msg with he | ⟨nm, he, _⟩
          · rw [he]
            exact hwf
          · rw [he]
            exact metaUpdate_WF hwf hcl _
        · rw [if_neg hj]
          rcases handleFirstJoin_state N rand now h wsId client msg with
            he | ⟨app, room, hva, hvr, hcap, he⟩
          · rw [he]
            exact hwf
          · rw [he]
            exact join_WF hwf hcl hj hva hvr rfl rfl hcap _
  | disconnect id =>
    rcases leaveRoom_state h id with he | ⟨c, hcl, hcli, hrooms⟩
    · show WF N (leaveRoom h id).1
      rw [he]
      exact hwf
    · have hsplit : (leaveRoom h id).1 =
        ⟨(leaveRoom h id).1.rooms, (leaveRoom h id).1.clients⟩ := rfl
      rcases hrooms with ⟨hr0, hcase⟩ | ⟨members, ha, hrr, hlk, hcase⟩
      · have heq : (leaveRoom h id).1 = ⟨h.rooms, mapDel h.clients id⟩ := by
          rw [hsplit, hr0, hcli]
        show WF N (leaveRoom h id).1
        rw [heq]
        apply delClient_WF hwf
        intro k ms hms hmem
        rcases hcase with hnj | hnone
        · exact (unjoined_not_member hwf hcl hnj k ms hms) hmem
        · have hk := member_only_its_room hwf hcl hms hmem
          rw [hk, hms] at hnone
          cases hnone
      · rcases hcase with ⟨hdel, hre⟩ | ⟨hne, hre⟩
        · have heq : (leaveRoom h id).1 =
            ⟨mapDel h.rooms (roomKey (ostr c.app) (ostr c.room)),
             mapDel h.clients id⟩ := by
            rw [hsplit, hre, hcli]
          show WF N (leaveRoom h id).1
          rw [heq]
          exact delRoom_WF hwf hcl rfl hlk hdel
        · have heq : (leaveRoom h id).1 =
            ⟨mapSet h.rooms (roomKey (ostr c.app) (ostr c.room))
               (setDel members id),
             mapDel h.clients id⟩ := by
            rw [hsplit, hre, hcli]
          show WF N (leaveRoom h id).1
          rw [heq]
          exact shrinkRoom_WF hwf hcl rfl hlk

theorem reachable_WF {N : Nat} {h : Hub} (hr : Reachable N h) : WF N h := by
  induction hr with
  | init => exact WF_init N
  | step _ hs ih => exact step_WF hs ih

/-! ## C4: welcome snapshot precedes insertion, notifications follow it -/

/-- C4: on a successful join from a reachable state, the `welcome` is the
first emitted message and carries the peer list and per-peer metadata
snapshot taken from the room strictly before the client's insertion (in
particular the client's own id is not among the peers), while the
`peer-joined` notifications that follow are resolved against the
post-insertion client registry, after the new member is stored. -/
theorem C4_welcome_ordering (N : Nat) (rand : Nat → Nat) (now : Nat) (h : Hub)
    (wsId : JStr) (c : Client) (app room : JStr) (metaV : JsVal)
    (hreach : Reachable N h)
    (hlook : mapGet h.clients wsId = some c)
    (hunj : ¬ (otruthy c.app = true ∧ otruthy c.room = true))
    (hva : validChannelNameStr app = true) (hvr : validChannelNameStr room = true)
    (hcap : ((mapGet h.rooms (roomKey app room)).getD []).length < N) :
    c.id ∉ (mapGet h.rooms (roomKey app room)).getD [] ∧
    (handleMessage N rand now h wsId
        (some (joinMsg (.vstr app) (.vstr room) metaV))).2 =
      OutMsg.welcome c.id c.id app room
        ((mapGet h.rooms (roomKey app room)).getD [])
        (((mapGet h.rooms (roomKey app room)).getD []).map fun peerId =>
          (peerId, (mapGet h.clients peerId).bind Client.meta))
        (joinedMeta h rand now c app room metaV) N ::
      ((mapGet h.rooms (roomKey app room)).getD []).filterMap (fun peerId =>
        (mapGet (handleMessage N rand now h wsId
            (some (joinMsg (.vstr app) (.vstr room) metaV))).1.clients
            peerId).map
          fun peer =>
            OutMsg.peerJoined peer.id c.id
              (joinedMeta h rand now c app room metaV)) ∧
    mapGet (handleMessage N rand now h wsId
        (some (joinMsg (.vstr app) (.vstr room) metaV))).1.rooms
        (roomKey app room) =
      some ((mapGet h.rooms (roomKey app room)).getD [] ++ [c.id]) := by
  have hwf := reachable_WF hreach
  have hcid := (hwf.clientId wsId c hlook).1
  have hnot : c.id ∉ (mapGet h.rooms (roomKey app room)).getD [] := by
    cases hlk : mapGet h.rooms (roomKey app room) with
    | none => simp
    | some ms0 =>
      rw [show (some ms0).getD [] = ms0 from rfl]
      exact hcid ▸ unjoined_not_member hwf hlook hunj _ ms0 hlk
  rw [handleMessage_unjoined hlook hunj,
    handleFirstJoin_success N rand now h wsId c app room metaV
      (roomKey app room) _ _ _ hva hvr rfl rfl hcap rfl rfl]
  refine ⟨hnot, rfl, ?_⟩
  rw [show (Hub.mk (mapSet h.rooms (roomKey app room)
      (setAdd ((mapGet h.rooms (roomKey app room)).getD []) c.id))
      (mapSet h.clients wsId (joinedClient c app room
        (joinedMeta h rand now c app room metaV)))).rooms
      = mapSet h.rooms (roomKey app room)
        (setAdd ((mapGet h.rooms (roomKey app room)).getD []) c.id) from rfl,
    mapGet_mapSet_self, setAdd_eq_append hnot]

/-- Witness for C4: the first client joining an empty room sees no peers and
triggers no notifications; the room then stores exactly that client. -/
theorem C4_welcome_ordering_witness :
    (handleMessage 8 (fun _ => 100) 0 (acceptClient ⟨[], []⟩ "A".data) "A".data
        (some (joinMsg (.vstr "demo".data) (.vstr "r1".data) .vundef))).2 =
      [OutMsg.welcome "A".data "A".data "demo".data "r1".data [] []
        ⟨"Player".data, "lobby".data⟩ 8] ∧
    mapGet (handleMessage 8 (fun _ => 100) 0 (acceptClient ⟨[], []⟩ "A".data)
        "A".data (some (joinMsg (.vstr "demo".data) (.vstr "r1".data)
          .vundef))).1.rooms "demo::r1".data = some ["A".data] := by
  have hreach : Reachable 8 (acceptClient ⟨[], []⟩ "A".data) :=
    Reachable.step Reachable.init
      (Step.accept ⟨[], []⟩ "A".data (by decide) rfl
        (by intro k ms hms; simp [mapGet] at hms))
  have hmain := C4_welcome_ordering 8 (fun _ => 100) 0
    (acceptClient ⟨[], []⟩ "A".data) "A".data ⟨"A".data, none, none, none⟩
    "demo".data "r1".data .vundef hreach rfl (by decide) (by decide) (by decide)
    (by decide)
  refine ⟨?_, ?_⟩
  · rw [hmain.2.1]
    rfl
  · exact hmain.2.2

/-! ## Name-uniqueness preservation -/

theorem jsToLower_ne_nil {s : JStr} (hs : s ≠ []) : jsToLower s ≠ [] := by
  simp [jsToLower, hs]

theorem lowName_mem_roomUsedNames {h : Hub} {key : JStr} {ms : List JStr}
    (hlk : mapGet h.rooms key = some ms) {m : JStr} (hm : m ∈ ms)
    {ig : Option JStr} (hnig : ¬ (otruthy ig = true ∧ ig = some m))
    {c : Client} {mm : Meta} (hc : mapGet h.clients m = some c)
    (hmm : c.meta = some mm) (hname : mm.name ≠ []) :
    jsToLower mm.name ∈ roomUsedNames h key ig := by
  unfold roomUsedNames
  rw [hlk]
  exact mem_collectUsed.mpr (Or.inr ⟨m, hm, hnig, c, mm, hc, hmm, hname, rfl⟩)

theorem roomUsedNames_length {h : Hub} {key : JStr} {ms : List JStr}
    {ig : Option JStr} (hlk : mapGet h.rooms key = some ms) :
    (roomUsedNames h key ig).length ≤ ms.length := by
  unfold roomUsedNames
  rw [hlk]
  simpa using @collectUsed_length h.clients ig ms []

theorem roomUsedNames_length_excl {h : Hub} {key : JStr} {ms : List JStr}
    {ex : JStr} (hlk : mapGet h.rooms key = some ms)
    (hex : otruthy (some ex) = true) (hmem : ex ∈ ms) :
    (roomUsedNames h key (some ex)).length ≤ ms.length - 1 := by
  unfold roomUsedNames
  rw [hlk]
  simpa using @collectUsed_length_excl h.clients ex hex ms [] hmem

theorem roomUsedNames_none {h : Hub} {key : JStr} {ig : Option JStr}
    (hlk : mapGet h.rooms key = none) : roomUsedNames h key ig = [] := by
  unfold roomUsedNames
  rw [hlk]

/-- Transfer a pairwise name-distinctness witness across an update of one
member's resolved name, provided the new name clashes with nobody else. -/
theorem pairwise_update_one {ms : List JStr} {f g : JStr → Option JStr}
    {u : JStr} (hnd : ms.Nodup)
    (hold : ms.Pairwise fun a b => ∀ x, f a = some x → f b ≠ some x)
    (heq : ∀ m ∈ ms, m ≠ u → g m = f m)
    (hdiff : ∀ m ∈ ms, m ≠ u → ∀ x y, g m = some x → g u = some y → x ≠ y) :
    ms.Pairwise fun a b => ∀ x, g a = some x → g b ≠ some x := by
  induction ms with
  | nil => exact List.Pairwise.nil
  | cons a t ih =>
    obtain ⟨hanott, hnd'⟩ := List.nodup_cons.mp hnd
    obtain ⟨hhead, htail⟩ := List.pairwise_cons.mp hold
    refine List.Pairwise.cons ?_
      (ih hnd' htail (fun m hm => heq m (List.mem_cons_of_mem _ hm))
        (fun m hm => hdiff m (List.mem_cons_of_mem _ hm)))
    intro b hb x hgax hgbx
    have hab : a ≠ b := fun he => hanott (he ▸ hb)
    by_cases hau : a = u
    · subst hau
      have hbu : b ≠ a := fun he => hab he.symm
      exact hdiff b (List.mem_cons_of_mem _ hb) hbu x x hgbx hgax rfl
    · by_cases hbu : b = u
      · subst hbu
        exact hdiff a (List.mem_cons_self _ _) hau x x hgax hgbx rfl
      · rw [heq a (List.mem_cons_self _ _) hau] at hgax
        rw [heq b (List.mem_cons_of_mem _ hb) hbu] at hgbx
        exact hhead b hb x hgax hgbx

/-- Appending a member whose resolved name clashes with nobody preserves
pairwise distinctness. -/
theorem pairwise_append_fresh {ms : List JStr} {g : JStr → Option JStr}
    {u : JStr}
    (hpw : ms.Pairwise fun a b => ∀ x, g a = some x → g b ≠ some x)
    (hdiff : ∀ m ∈ ms, ∀ x y, g m = some x → g u = some y → x ≠ y) :
    (ms ++ [u]).Pairwise fun a b => ∀ x, g a = some x → g b ≠ some x := by
  rw [List.pairwise_append]
  refine ⟨hpw, List.pairwise_singleton _ _, ?_⟩
  intro a ha b hb x hgax hgbx
  rcases List.mem_singleton.mp hb with rfl
  exact hdiff a ha x x hgax hgbx rfl

/-- If every member of every room resolves to the same name in `h'` as in
`h` and the rooms agree, uniqueness transfers. -/
theorem namesUnique_transfer {h h' : Hub} (hrooms : h'.rooms = h.rooms)
    (hpres : ∀ k ms, mapGet h.rooms k = some ms → ∀ m ∈ ms,
      lowName h' m = lowName h m)
    (hu : NamesUnique h) : NamesUnique h' := by
  intro k ms hms
  rw [hrooms] at hms
  refine (hu k ms hms).imp_of_mem ?_
  intro a b ha hb hR x hax
  rw [hpres k ms hms a ha] at hax
  rw [hpres k ms hms b hb]
  exact hR x hax

theorem lowName_some_iff {h : Hub} {m x : JStr} :
    lowName h m = some x ↔ ∃ c mm, mapGet h.clients m = some c ∧
      c.meta = some mm ∧ x = jsToLower mm.name := by
  unfold lowName
  cases hc : mapGet h.clients m with
  | none => simp
  | some c =>
    cases hmm : c.meta with
    | none => simp [hmm]
    | some mm =>
      constructor
      · intro he
        refine ⟨c, mm, rfl, hmm, ?_⟩
        have h2 : (some mm).map (fun mm => jsToLower mm.name) = some x := by
          simpa [hmm] using he
        simpa using h2.symm
      · rintro ⟨c', mm', hc', hmm', rfl⟩
        cases hc'
        rw [hmm] at hmm'
        cases hmm'
        simp [hmm]

theorem join_namesUnique {N : Nat} {h : Hub} {wsId : JStr} {c : Client}
    {app room : JStr} (metaV : JsVal) (rand : Nat → Nat) (now : Nat)
    (hwf : WF N h) (hu : NamesUnique h)
    (hlook : mapGet h.clients wsId = some c)
    (hunj : ¬ (otruthy c.app = true ∧ otruthy c.room = true))
    (hcap : ((mapGet h.rooms (roomKey app room)).getD []).length < N)
    (hN : N ≤ 9998) :
    NamesUnique ⟨mapSet h.rooms (roomKey app room)
        (setAdd ((mapGet h.rooms (roomKey app room)).getD []) c.id),
      mapSet h.clients wsId (joinedClient c app room
        (joinedMeta h rand now c app room metaV))⟩ := by
  obtain ⟨hcid, hne⟩ := hwf.clientId wsId c hlook
  have hnomem : ∀ k ms, mapGet h.rooms k = some ms → c.id ∉ ms := by
    intro k ms hms
    exact hcid ▸ unjoined_not_member hwf hlook hunj k ms hms
  have hcidmem : c.id ∉ (mapGet h.rooms (roomKey app room)).getD [] := by
    cases hlk : mapGet h.rooms (roomKey app room) with
    | none => simp
    | some ms0 => exact hnomem _ ms0 hlk
  have hfresh : jsToLower (joinedMeta h rand now c app room metaV).name ∉
      roomUsedNames h (roomKey app room) (some c.id) := by
    show jsToLower (uniqueNameFrom rand now _ _) ∉ _
    apply uniqueNameFrom_fresh_of_small
    cases hlk : mapGet h.rooms (roomKey app room) with
    | none =>
      rw [roomUsedNames_none hlk]
      simp
    | some ms0 =>
      have h1 := @roomUsedNames_length _ _ _ (some c.id) hlk
      rw [hlk] at hcap
      have h2 : ms0.length < N := hcap
      omega
  have hnmne : (joinedMeta h rand now c app room metaV).name ≠ [] := by
    show uniqueNameFrom rand now _ _ ≠ []
    exact uniqueNameFrom_ne_nil (normalizeDisplayNameStr_ne_nil _)
  have hlowu : ∀ R : List (JStr × List JStr),
      lowName ⟨R, mapSet h.clients wsId (joinedClient c app room
        (joinedMeta h rand now c app room metaV))⟩ c.id =
      some (jsToLower (joinedMeta h rand now c app room metaV).name) := by
    intro R
    unfold lowName
    rw [show (Hub.mk R (mapSet h.clients wsId (joinedClient c app room
        (joinedMeta h rand now c app room metaV)))).clients
        = mapSet h.clients wsId (joinedClient c app room
          (joinedMeta h rand now c app room metaV)) from rfl,
      hcid, mapGet_mapSet_self]
    rfl
  have hlowold : ∀ (R : List (JStr × List JStr)) (m : JStr), m ≠ c.id →
      lowName ⟨R, mapSet h.clients wsId (joinedClient c app room
        (joinedMeta h rand now c app room metaV))⟩ m = lowName h m := by
    intro R m hm
    apply lowName_clients_eq
    rw [show (Hub.mk R (mapSet h.clients wsId (joinedClient c app room
        (joinedMeta h rand now c app room metaV)))).clients
        = mapSet h.clients wsId (joinedClient c app room
          (joinedMeta h rand now c app room metaV)) from rfl,
      ← hcid, mapGet_mapSet_ne]
    exact hm
  intro k ms hms
  rw [show (Hub.mk (mapSet h.rooms (roomKey app room)
      (setAdd ((mapGet h.rooms (roomKey app room)).getD []) c.id))
      (mapSet h.clients wsId (joinedClient c app room
        (joinedMeta h rand now c app room metaV)))).rooms
      = mapSet h.rooms (roomKey app room)
        (setAdd ((mapGet h.rooms (roomKey app room)).getD []) c.id)
      from rfl] at hms
  by_cases hk : k = roomKey app room
  · rw [hk] at hms
    rw [mapGet_mapSet_self] at hms
    injection hms with hms'
    subst hms'
    rw [setAdd_eq_append hcidmem]
    apply pairwise_append_fresh
    · cases hlk : mapGet h.rooms (roomKey app room) with
      | none =>
        exact List.Pairwise.nil
      | some ms0 =>
        show ms0.Pairwise _
        refine (hu _ ms0 hlk).imp_of_mem ?_
        intro a b ha hb hR x hax
        have hane : a ≠ c.id := fun he => hnomem _ ms0 hlk (he ▸ ha)
        have hbne : b ≠ c.id := fun he => hnomem _ ms0 hlk (he ▸ hb)
        rw [hlowold _ a hane] at hax
        rw [hlowold _ b hbne]
        exact hR x hax
    · intro m hm x y hgm hgu
      have hmne : m ≠ c.id := fun he => hcidmem (he ▸ hm)
      rw [hlowu] at hgu
      injection hgu with hgu'
      subst hgu'
      rw [hlowold _ m hmne] at hgm
      obtain ⟨c', mm, hc', hmm, rfl⟩ := lowName_some_iff.mp hgm
      by_cases hmmname : mm.name = []
      · rw [hmmname]
        intro hcontra
        exact jsToLower_ne_nil hnmne hcontra.symm
      · intro hcontra
        apply hfresh
        rw [← hcontra]
        cases hlk : mapGet h.rooms (roomKey app room) with
        | none =>
          rw [hlk] at hm
          simp at hm
        | some ms0 =>
          rw [hlk] at hm
          exact lowName_mem_roomUsedNames hlk hm
            (by rintro ⟨_, he⟩; exact hmne (Option.some.inj he).symm) hc' hmm
            hmmname
  · rw [mapGet_mapSet_ne _ _ hk] at hms
    refine (hu k ms hms).imp_of_mem ?_
    intro a b ha hb hR x hax
    have hane : a ≠ c.id := fun he => hnomem k ms hms (he ▸ ha)
    have hbne : b ≠ c.id := fun he => hnomem k ms hms (he ▸ hb)
    rw [hlowold _ a hane] at hax
    rw [hlowold _ b hbne]
    exact hR x hax

theorem otruthy_some_of_ne {s : JStr} (hs : s ≠ []) :
    otruthy (some s) = true := by
  simp [otruthy, hs]

theorem setMeta_namesUnique {N : Nat} {h : Hub} {wsId : JStr} {c : Client}
    (rand : Nat → Nat) (now : Nat)
    (hwf : WF N h) (hu : NamesUnique h)
    (hlook : mapGet h.clients wsId = some c)
    (hN : N ≤ 9998) (nm : Meta)
    (hname : nm.name = (c.meta.map Meta.name).getD "Player".data ∨
      ∃ patch, nm.name = uniqueName h rand now
        (normalizeDisplayName (getField patch "name".data))
        (roomKey (ostr c.app) (ostr c.room)) (some c.id)) :
    NamesUnique ⟨h.rooms, mapSet h.clients wsId { c with meta := some nm }⟩ := by
  obtain ⟨hcid, hne⟩ := hwf.clientId wsId c hlook
  have hproj : (Hub.mk h.rooms (mapSet h.clients wsId
      { c with meta := some nm })).clients
      = mapSet h.clients wsId { c with meta := some nm } := rfl
  have hlow_ne : ∀ (m : JStr), m ≠ wsId →
      lowName ⟨h.rooms, mapSet h.clients wsId { c with meta := some nm }⟩ m =
        lowName h m := by
    intro m hm
    apply lowName_clients_eq
    rw [hproj, mapGet_mapSet_ne _ _ hm]
  have hlowu : lowName ⟨h.rooms, mapSet h.clients wsId
      { c with meta := some nm }⟩ wsId = some (jsToLower nm.name) := by
    unfold lowName
    rw [hproj, mapGet_mapSet_self]
    rfl
  intro k ms hms
  rw [show (Hub.mk h.rooms (mapSet h.clients wsId
      { c with meta := some nm })).rooms = h.rooms from rfl] at hms
  by_cases hin : wsId ∈ ms
  · have hkey : roomKey (ostr c.app) (ostr c.room) = k :=
      member_only_its_room hwf hlook hms hin
    obtain ⟨c0, hc0, _, _, _, hmeta0⟩ := hwf.memberClient k ms hms wsId hin
    rw [hlook] at hc0
    cases hc0
    obtain ⟨m0, hm0⟩ := Option.isSome_iff_exists.mp hmeta0
    rcases hname with hpname | ⟨patch, hpname⟩
    · have heqname : nm.name = m0.name := by
        rw [hpname, hm0]
        rfl
      have heqAll : ∀ m ∈ ms, lowName ⟨h.rooms, mapSet h.clients wsId
          { c with meta := some nm }⟩ m = lowName h m := by
        intro m hm
        by_cases hmw : m = wsId
        · subst hmw
          rw [hlowu, heqname]
          unfold lowName
          rw [hlook]
          show some (jsToLower m0.name) =
            Option.map (fun mm => jsToLower mm.name) c.meta
          rw [hm0]
          rfl
        · exact hlow_ne m hmw
      refine (hu k ms hms).imp_of_mem ?_
      intro a b ha hb hR x hax
      rw [heqAll a ha] at hax
      rw [heqAll b hb]
      exact hR x hax
    · have hmslen := hwf.sizeBound k ms hms
      have hmspos : 1 ≤ ms.length := List.length_pos.mpr (List.ne_nil_of_mem hin)
      have hfresh : jsToLower nm.name ∉ roomUsedNames h k (some wsId) := by
        rw [hpname, hkey, hcid]
        show jsToLower (uniqueNameFrom rand now _ _) ∉ _
        apply uniqueNameFrom_fresh_of_small
        have := @roomUsedNames_length_excl _ _ _ wsId hms
          (otruthy_some_of_ne hne) hin
        omega
      have hnm_ne : nm.name ≠ [] := by
        rw [hpname]
        exact uniqueNameFrom_ne_nil (normalizeDisplayNameStr_ne_nil _)
      apply pairwise_update_one (hwf.membersNodup k ms hms) (hu k ms hms)
      · intro m hm hmw
        exact hlow_ne m hmw
      · intro m hm hmw x y hgm hgu
        rw [hlowu] at hgu
        injection hgu with hgu'
        subst hgu'
        rw [hlow_ne m hmw] at hgm
        obtain ⟨c', mm, hc', hmm, rfl⟩ := lowName_some_iff.mp hgm
        by_cases hmmname : mm.name = []
        · rw [hmmname]
          intro hcontra
          exact jsToLower_ne_nil hnm_ne hcontra.symm
        · intro hcontra
          apply hfresh
          rw [← hcontra]
          exact lowName_mem_roomUsedNames hms hm
            (by rintro ⟨_, he⟩; exact hmw (Option.some.inj he).symm) hc' hmm
            hmmname
  · refine (hu k ms hms).imp_of_mem ?_
    intro a b ha hb hR x hax
    have hane : a ≠ wsId := fun he => hin (he ▸ ha)
    have hbne : b ≠ wsId := fun he => hin (he ▸ hb)
    rw [hlow_ne a hane] at hax
    rw [hlow_ne b hbne]
    exact hR x hax

theorem delClient_namesUnique {h : Hub} {clientId : JStr} (hu : NamesUnique h)
    (hnomem : ∀ k ms, mapGet h.rooms k = some ms → clientId ∉ ms) :
    NamesUnique ⟨h.rooms, mapDel h.clients clientId⟩ := by
  have hpres : ∀ k ms, mapGet h.rooms k = some ms → ∀ m ∈ ms,
      lowName ⟨h.rooms, mapDel h.clients clientId⟩ m = lowName h m := by
    intro k ms hms m hm
    apply lowName_clients_eq
    rw [show (Hub.mk h.rooms (mapDel h.clients clientId)).clients
        = mapDel h.clients clientId from rfl, mapGet_mapDel_ne]
    exact fun he => hnomem k ms hms (he ▸ hm)
  exact @namesUnique_transfer h ⟨h.rooms, mapDel h.clients clientId⟩ rfl hpres hu

theorem delRoom_namesUnique {N : Nat} {h : Hub} {clientId : JStr}
    {client : Client} {key : JStr}
    (hwf : WF N h) (hu : NamesUnique h)
    (hcl : mapGet h.clients clientId = some client)
    (hkey : key = roomKey (ostr client.app) (ostr client.room)) :
    NamesUnique ⟨mapDel h.rooms key, mapDel h.clients clientId⟩ := by
  intro k ms hms
  rw [show (Hub.mk (mapDel h.rooms key) (mapDel h.clients clientId)).rooms
      = mapDel h.rooms key from rfl] at hms
  by_cases hk : k = key
  · subst hk
    rw [mapGet_mapDel_self] at hms
    cases hms
  · rw [mapGet_mapDel_ne _ hk] at hms
    have hmne : ∀ m ∈ ms, m ≠ clientId := by
      intro m hm hmc
      subst hmc
      have := member_only_its_room hwf hcl hms hm
      rw [← hkey] at this
      exact hk this.symm
    refine (hu k ms hms).imp_of_mem ?_
    intro a b ha hb hR x hax
    have hlowa : lowName ⟨mapDel h.rooms key, mapDel h.clients clientId⟩ a =
        lowName h a := lowName_clients_eq (by
      rw [show (Hub.mk (mapDel h.rooms key) (mapDel h.clients clientId)).clients
          = mapDel h.clients clientId from rfl, mapGet_mapDel_ne _ (hmne a ha)])
    have hlowb : lowName ⟨mapDel h.rooms key, mapDel h.clients clientId⟩ b =
        lowName h b := lowName_clients_eq (by
      rw [show (Hub.mk (mapDel h.rooms key) (mapDel h.clients clientId)).clients
          = mapDel h.clients clientId from rfl, mapGet_mapDel_ne _ (hmne b hb)])
    rw [hlowa] at hax
    rw [hlowb]
    exact hR x hax

theorem shrinkRoom_namesUnique {N : Nat} {h : Hub} {clientId : JStr}
    {client : Client} {key : JStr} {members : List JStr}
    (hwf : WF N h) (hu : NamesUnique h)
    (hcl : mapGet h.clients clientId = some client)
    (hkey : key = roomKey (ostr client.app) (ostr client.room))
    (hlk : mapGet h.rooms key = some members) :
    NamesUnique ⟨mapSet h.rooms key (setDel members clientId),
                 mapDel h.clients clientId⟩ := by
  intro k ms hms
  rw [show (Hub.mk (mapSet h.rooms key (setDel members clientId))
      (mapDel h.clients clientId)).rooms
      = mapSet h.rooms key (setDel members clientId) from rfl] at hms
  by_cases hk : k = key
  · subst hk
    rw [mapGet_mapSet_self] at hms
    injection hms with hms'
    subst hms'
    have hbase := (hu k members hlk).filter (fun m => decide (m ≠ clientId))
    refine hbase.imp_of_mem ?_
    intro a b ha hb hR x hax
    have hane : a ≠ clientId := (mem_setDel_iff.mp ha).2
    have hbne : b ≠ clientId := (mem_setDel_iff.mp hb).2
    have hlowa : lowName ⟨mapSet h.rooms k (setDel members clientId),
        mapDel h.clients clientId⟩ a = lowName h a := lowName_clients_eq (by
      rw [show (Hub.mk (mapSet h.rooms k (setDel members clientId))
          (mapDel h.clients clientId)).clients
          = mapDel h.clients clientId from rfl, mapGet_mapDel_ne _ hane])
    have hlowb : lowName ⟨mapSet h.rooms k (setDel members clientId),
        mapDel h.clients clientId⟩ b = lowName h b := lowName_clients_eq (by
      rw [show (Hub.mk (mapSet h.rooms k (setDel members clientId))
          (mapDel h.clients clientId)).clients
          = mapDel h.clients clientId from rfl, mapGet_mapDel_ne _ hbne])
    rw [hlowa] at hax
    rw [hlowb]
    exact hR x hax
  · rw [mapGet_mapSet_ne _ _ hk] at hms
    have hmne : ∀ m ∈ ms, m ≠ clientId := by
      intro m hm hmc
      subst hmc
      have := member_only_its_room hwf hcl hms hm
      rw [← hkey] at this
      exact hk this.symm
    refine (hu k ms hms).imp_of_mem ?_
    intro a b ha hb hR x hax
    have hlowa : lowName ⟨mapSet h.rooms key (setDel members clientId),
        mapDel h.clients clientId⟩ a = lowName h a := lowName_clients_eq (by
      rw [show (Hub.mk (mapSet h.rooms key (setDel members clientId))
          (mapDel h.clients clientId)).clients
          = mapDel h.clients clientId from rfl, mapGet_mapDel_ne _ (hmne a ha)])
    have hlowb : lowName ⟨mapSet h.rooms key (setDel members clientId),
        mapDel h.clients clientId⟩ b = lowName h b := lowName_clients_eq (by
      rw [show (Hub.mk (mapSet h.rooms key (setDel members clientId))
          (mapDel h.clients clientId)).clients
          = mapDel h.clients clientId from rfl, mapGet_mapDel_ne _ (hmne b hb)])
    rw [hlowa] at hax
    rw [hlowb]
    exact hR x hax

theorem accept_namesUnique {h : Hub} {id : JStr} (hu : NamesUnique h)
    (hmem : ∀ k ms, mapGet h.rooms k = some ms → id ∉ ms) :
    NamesUnique (acceptClient h id) := by
  have hpres : ∀ k ms, mapGet h.rooms k = some ms → ∀ m ∈ ms,
      lowName (acceptClient h id) m = lowName h m := by
    intro k ms hms m hm
    apply lowName_clients_eq
    rw [show (acceptClient h id).clients
        = mapSet h.clients id ⟨id, none, none, none⟩ from rfl, mapGet_mapSet_ne]
    exact fun he => hmem k ms hms (he ▸ hm)
  exact @namesUnique_transfer h (acceptClient h id) rfl hpres hu

theorem step_namesUnique {N : Nat} {h h' : Hub} (hs : Step N h h')
    (hN : N ≤ 9998) (hwf : WF N h) (hu : NamesUnique h) : NamesUnique h' := by
  cases hs with
  | accept id hne hfresh hmem => exact accept_namesUnique hu hmem
  | message wsId raw rand now hrand =>
    show NamesUnique (handleMessage N rand now h wsId raw).1
    unfold handleMessage
    cases hcl : mapGet h.clients wsId with
    | none => exact hu
    | some client =>
      cases raw with
      | none => exact hu
      | some msg =>
        dsimp only
        by_cases hj : otruthy client.app = true ∧ otruthy client.room = true
        · rw [if_pos hj]
          rcases hjcm_state rand now h wsId client msg with he | ⟨nm, he, hname⟩
          · rw [he]
            exact hu
          · rw [he]
            exact setMeta_namesUnique rand now hwf hu hcl hN nm hname
        · rw [if_neg hj]
          rcases handleFirstJoin_state N rand now h wsId client msg with
            he | ⟨app, room, hva, hvr, hcap, he⟩
          · rw [he]
            exact hu
          · rw [he]
            exact join_namesUnique _ rand now hwf hu hcl hj hcap hN
  | disconnect id =>
    rcases leaveRoom_state h id with he | ⟨c, hcl, hcli, hrooms⟩
    · show NamesUnique (leaveRoom h id).1
      rw [he]
      exact hu
    · have hsplit : (leaveRoom h id).1 =
        ⟨(leaveRoom h id).1.rooms, (leaveRoom h id).1.clients⟩ := rfl
      rcases hrooms with ⟨hr0, hcase⟩ | ⟨members, ha, hrr, hlk, hcase⟩
      · have heq : (leaveRoom h id).1 = ⟨h.rooms, mapDel h.clients id⟩ := by
          rw [hsplit, hr0, hcli]
        show NamesUnique (leaveRoom h id).1
        rw [heq]
        apply delClient_namesUnique hu
        intro k ms hms hmem
        rcases hcase with hnj | hnone
        · exact (unjoined_not_member hwf hcl hnj k ms hms) hmem
        · have hk := member_only_its_room hwf hcl hms hmem
          rw [hk, hms] at hnone
          cases hnone
      · rcases hcase with ⟨hdel, hre⟩ | ⟨hne2, hre⟩
        · have heq : (leaveRoom h id).1 =
            ⟨mapDel h.rooms (roomKey (ostr c.app) (ostr c.room)),
             mapDel h.clients id⟩ := by
            rw [hsplit, hre, hcli]
          show NamesUnique (leaveRoom h id).1
          rw [heq]
          exact delRoom_namesUnique hwf hu hcl rfl
        · have heq : (leaveRoom h id).1 =
            ⟨mapSet h.rooms (roomKey (ostr c.app) (ostr c.room))
               (setDel members id),
             mapDel h.clients id⟩ := by
            rw [hsplit, hre, hcli]
          show NamesUnique (leaveRoom h id).1
          rw [heq]
          exact shrinkRoom_namesUnique hwf hu hcl rfl hlk

theorem tryRandomFrom_eq_none {rand : Nat → Nat} {base : JStr}
    {used : List JStr} : ∀ fuel i,
    (∀ j, i ≤ j → j < i + fuel → jsToLower (base ++ natDec (rand j)) ∈ used) →
    tryRandomFrom rand base used fuel i = none := by
  intro fuel
  induction fuel with
  | zero => intro i _; rfl
  | succ f ih =>
    intro i hall
    simp only [tryRandomFrom]
    rw [if_pos (hall i (Nat.le_refl i) (by omega))]
    exact ih (i + 1) (fun j h1 h2 => hall j (by omega) (by omega))

theorem trySeqFrom_eq_none_aux {base : JStr} {used : List JStr} :
    ∀ fuel n, 10000 - n ≤ fuel →
    (∀ k, n ≤ k → k < 10000 → jsToLower (base ++ natDec k) ∈ used) →
    trySeqFrom base used n = none := by
  intro fuel
  induction fuel with
  | zero =>
    intro n hle hall
    unfold trySeqFrom
    have h10 : ¬ n < 10000 := by omega
    simp [h10]
  | succ f ih =>
    intro n hle hall
    unfold trySeqFrom
    by_cases h10 : n < 10000
    · simp only [h10, dite_true]
      rw [if_pos (hall n (Nat.le_refl n) h10)]
      exact ih (n + 1) (by omega) (fun k hk1 hk2 => hall k (by omega) hk2)
    · simp [h10]

theorem trySeqFrom_eq_none {base : JStr} {used : List JStr} {n : Nat}
    (hall : ∀ k, n ≤ k → k < 10000 → jsToLower (base ++ natDec k) ∈ used) :
    trySeqFrom base used n = none :=
  trySeqFrom_eq_none_aux (10000 - n) n (Nat.le_refl _) hall

theorem isJsSpace_digitChar (d : Nat) : isJsSpace (digitChar d) = false := by
  unfold digitChar
  split <;> decide

theorem natDec_nospace (n : Nat) : ∀ c ∈ natDec n, isJsSpace c = false := by
  induction n using Nat.strong_induction_on with
  | _ n ih =>
    rw [natDec_eq]
    split
    · intro c hc
      rw [List.mem_singleton] at hc
      subst hc
      exact isJsSpace_digitChar n
    · next h =>
      intro c hc
      rcases List.mem_append.mp hc with hc1 | hc2
      · exact ih (n / 10) (Nat.div_lt_self (by omega) (by omega)) c hc1
      · rw [List.mem_singleton] at hc2
        subst hc2
        exact isJsSpace_digitChar _

theorem collapseWsAux_nospace {s : JStr} (h : ∀ c ∈ s, isJsSpace c = false) :
    ∀ b, collapseWsAux b s = s := by
  induction s with
  | nil => intro b; rfl
  | cons c rest ih =>
    intro b
    have hc : isJsSpace c = false := h c (List.mem_cons_self _ _)
    simp [collapseWsAux, hc, ih (fun c' hc' => h c' (List.mem_cons_of_mem _ hc'))]

theorem dropWhile_nospace {s : JStr} (h : ∀ c ∈ s, isJsSpace c = false) :
    s.dropWhile isJsSpace = s := by
  cases s with
  | nil => rfl
  | cons c rest =>
    rw [List.dropWhile_cons]
    simp [h c (List.mem_cons_self _ _)]

theorem jsTrim_nospace {s : JStr} (h : ∀ c ∈ s, isJsSpace c = false) :
    jsTrim s = s := by
  unfold jsTrim
  rw [dropWhile_nospace h,
    dropWhile_nospace (fun c hc => h c (List.mem_reverse.mp hc))]
  exact List.reverse_reverse s

theorem normalizeDisplayNameStr_eq_self {s : JStr}
    (hsp : ∀ c ∈ s, isJsSpace c = false) (hne : s ≠ [])
    (hlen : s.length ≤ 24) : normalizeDisplayNameStr s = s := by
  unfold normalizeDisplayNameStr collapseWs
  dsimp only
  rw [collapseWsAux_nospace hsp false, jsTrim_nospace hsp,
    List.take_of_length_le hlen, if_neg hne]

theorem reachable_namesUnique {N : Nat} {h : Hub} (hN : N ≤ 9998)
    (hr : Reachable N h) : NamesUnique h := by
  have hand : WF N h ∧ NamesUnique h := by
    induction hr with
    | init =>
      refine ⟨WF_init N, ?_⟩
      intro k ms hms
      simp [mapGet] at hms
    | step _ hs ih =>
      exact ⟨step_WF hs ih.1, step_namesUnique hs hN ih.1 ih.2⟩
  exact hand.2

theorem mapGet_append_left {α : Type} {l1 : List (JStr × α)}
    (l2 : List (JStr × α)) {k : JStr} {v : α} (h : mapGet l1 k = some v) :
    mapGet (l1 ++ l2) k = some v := by
  induction l1 with
  | nil => exact absurd h (by simp [mapGet])
  | cons e t ih =>
    obtain ⟨k', v'⟩ := e
    rw [List.cons_append]
    unfold mapGet at h ⊢
    by_cases hk : k' = k
    · rw [if_pos hk] at h
      rw [if_pos hk]
      exact h
    · rw [if_neg hk] at h
      rw [if_neg hk]
      exact ih h

theorem mapGet_append_right {α : Type} {l1 : List (JStr × α)}
    (l2 : List (JStr × α)) {k : JStr} (h : mapGet l1 k = none) :
    mapGet (l1 ++ l2) k = mapGet l2 k := by
  induction l1 with
  | nil => rfl
  | cons e t ih =>
    obtain ⟨k', v'⟩ := e
    rw [List.cons_append]
    unfold mapGet at h
    by_cases hk : k' = k
    · rw [if_pos hk] at h
      cases h
    · rw [if_neg hk] at h
      show (if k' = k then some v' else mapGet (t ++ l2) k) = mapGet l2 k
      rw [if_neg hk]
      exact ih h

theorem mapSet_append_fresh {α : Type} {l : List (JStr × α)} {k : JStr}
    (v : α) (h : mapGet l k = none) : mapSet l k v = l ++ [(k, v)] := by
  induction l with
  | nil => rfl
  | cons e t ih =>
    obtain ⟨k', v'⟩ := e
    unfold mapGet at h
    unfold mapSet
    by_cases hk : k' = k
    · rw [if_pos hk] at h
      cases h
    · rw [if_neg hk] at h
      rw [if_neg hk, ih h, List.cons_append]

theorem mapSet_replace_last {α : Type} {l1 : List (JStr × α)} {k : JStr}
    (w v : α) (h : mapGet l1 k = none) :
    mapSet (l1 ++ [(k, w)]) k v = l1 ++ [(k, v)] := by
  induction l1 with
  | nil => simp [mapSet]
  | cons e t ih =>
    obtain ⟨k', v'⟩ := e
    unfold mapGet at h
    rw [List.cons_append, List.cons_append]
    unfold mapSet
    by_cases hk : k' = k
    · rw [if_pos hk] at h
      cases h
    · rw [if_neg hk] at h
      rw [if_neg hk, ih h]

/-! ## A 9999-member room: the counterexample construction for C2 -/

/-- Sequential indices `[1, …, n]` used to build the large room. -/
def seqTo : Nat → List Nat
  | 0 => []
  | n + 1 => seqTo n ++ [n + 1]

theorem mem_seqTo {n m : Nat} : m ∈ seqTo n ↔ 1 ≤ m ∧ m ≤ n := by
  induction n with
  | zero =>
    simp [seqTo]
    omega
  | succ k ih =>
    simp [seqTo, List.mem_append, ih]
    omega

theorem seqTo_length (n : Nat) : (seqTo n).length = n := by
  induction n with
  | zero => rfl
  | succ k ih => simp [seqTo, ih]

theorem seqTo_pairwise_lt (n : Nat) : (seqTo n).Pairwise (fun a b => a < b) := by
  induction n with
  | zero => exact List.Pairwise.nil
  | succ k ih =>
    show (seqTo k ++ [k + 1]).Pairwise _
    rw [List.pairwise_append]
    refine ⟨ih, by simp, ?_⟩
    intro a ha b hb
    rw [List.mem_singleton] at hb
    subst hb
    exact Nat.lt_succ_of_le (mem_seqTo.mp ha).2

/-- The fixed app, room and room key of the construction. -/
def dApp : JStr := "demo".data

def dRoom : JStr := "r1".data

def dKey : JStr := roomKey dApp dRoom

/-- The id of the `j`-th connection. -/
def uid (j : Nat) : JStr := 'u' :: natDec j

/-- Base display name, and its lower-cased form. -/
def pbase : JStr := "Player".data

def lpbase : JStr := "player".data

/-- Display name of the `j`-th member: `Player` for member 1, `Player<j>`
after it. -/
def pname (j : Nat) : JStr := if j = 1 then pbase else pbase ++ natDec j

def lpname (j : Nat) : JStr := if j = 1 then lpbase else lpbase ++ natDec j

def mkMeta (j : Nat) : Meta := ⟨pname j, "lobby".data⟩

def mkClient (j : Nat) : Client := ⟨uid j, some dApp, some dRoom, some (mkMeta j)⟩

def blankClient (j : Nat) : Client := ⟨uid j, none, none, none⟩

/-- Registries after members `1, …, n` have joined the room. -/
def bigMembers (n : Nat) : List JStr := (seqTo n).map uid

def bigClients (n : Nat) : List (JStr × Client) :=
  (seqTo n).map (fun j => (uid j, mkClient j))

def bigHub (n : Nat) : Hub :=
  ⟨if n = 0 then [] else [(dKey, bigMembers n)], bigClients n⟩

/-- `bigHub n` right after connection `j` was accepted (not yet joined). -/
def bigHubA (n j : Nat) : Hub :=
  ⟨(bigHub n).rooms, bigClients n ++ [(uid j, blankClient j)]⟩

/-- The parsed join message requesting display name `s`. -/
def joinReq (s : JStr) : JsVal :=
  joinMsg (.vstr dApp) (.vstr dRoom) (.vobj [("name".data, .vstr s)])

theorem uid_inj {i j : Nat} (h : uid i = uid j) : i = j := by
  unfold uid at h
  injection h with h1 h2
  exact natDec_injective h2

theorem uid_ne_nil (j : Nat) : uid j ≠ [] := List.cons_ne_nil _ _

theorem pbase_nospace : ∀ c ∈ pbase, isJsSpace c = false := by decide

theorem pname_nospace (j : Nat) : ∀ c ∈ pname j, isJsSpace c = false := by
  unfold pname
  split
  · exact pbase_nospace
  · intro c hc
    rcases List.mem_append.mp hc with h1 | h2
    · exact pbase_nospace c h1
    · exact natDec_nospace j c h2

theorem pname_ne_nil (j : Nat) : pname j ≠ [] := by
  unfold pname
  split
  · decide
  · intro hx
    exact absurd (List.append_eq_nil.mp hx).1 (by decide)

theorem pname_length {j : Nat} (hj : j < 100000) : (pname j).length ≤ 24 := by
  unfold pname
  split
  · decide
  · rw [List.length_append]
    have h6 : pbase.length = 6 := by decide
    have h5 : (10 : Nat) ^ 5 = 100000 := by norm_num
    have := @natDec_length_le j 5 (h5 ▸ hj) (by norm_num)
    omega

theorem normalizeDisplayNameStr_pname {j : Nat} (hj : j < 100000) :
    normalizeDisplayNameStr (pname j) = pname j :=
  normalizeDisplayNameStr_eq_self (pname_nospace j) (pname_ne_nil j)
    (pname_length hj)

theorem jsToLower_pbase : jsToLower pbase = lpbase := by decide

theorem jsToLower_pname (j : Nat) : jsToLower (pname j) = lpname j := by
  unfold pname lpname
  by_cases h1 : j = 1
  · rw [if_pos h1, if_pos h1]
    exact jsToLower_pbase
  · rw [if_neg h1, if_neg h1, jsToLower_append, jsToLower_pbase,
      jsToLower_natDec]

theorem lpname_inj {i j : Nat} (hi : 1 ≤ i) (hj : 1 ≤ j)
    (h : lpname i = lpname j) : i = j := by
  unfold lpname at h
  by_cases h1 : i = 1 <;> by_cases h2 : j = 1
  · omega
  · rw [if_pos h1, if_neg h2] at h
    exact absurd h.symm (append_suffix_ne_self lpbase (natDec j) (natDec_ne_nil j))
  · rw [if_neg h1, if_pos h2] at h
    exact absurd h (append_suffix_ne_self lpbase (natDec i) (natDec_ne_nil i))
  · rw [if_neg h1, if_neg h2] at h
    exact natDec_injective (List.append_cancel_left h)

theorem bigMembers_succ (n : Nat) :
    bigMembers (n + 1) = bigMembers n ++ [uid (n + 1)] := by
  simp [bigMembers, seqTo]

theorem bigClients_succ (n : Nat) :
    bigClients (n + 1) = bigClients n ++ [(uid (n + 1), mkClient (n + 1))] := by
  simp [bigClients, seqTo]

theorem mem_bigMembers {n : Nat} {x : JStr} :
    x ∈ bigMembers n ↔ ∃ j, 1 ≤ j ∧ j ≤ n ∧ x = uid j := by
  unfold bigMembers
  rw [List.mem_map]
  constructor
  · rintro ⟨j, hj, rfl⟩
    obtain ⟨h1, h2⟩ := mem_seqTo.mp hj
    exact ⟨j, h1, h2, rfl⟩
  · rintro ⟨j, h1, h2, rfl⟩
    exact ⟨j, mem_seqTo.mpr ⟨h1, h2⟩, rfl⟩

theorem bigMembers_length (n : Nat) : (bigMembers n).length = n := by
  simp [bigMembers, seqTo_length]

theorem mapGet_bigClients_none {n j : Nat} (hj : n < j) :
    mapGet (bigClients n) (uid j) = none := by
  induction n with
  | zero => rfl
  | succ k ih =>
    rw [bigClients_succ, mapGet_append_right _ (ih (by omega))]
    have hne : uid (k + 1) ≠ uid j := fun he => absurd (uid_inj he) (by omega)
    simp [mapGet, hne]

theorem mapGet_bigClients {n j : Nat} (h1 : 1 ≤ j) (h2 : j ≤ n) :
    mapGet (bigClients n) (uid j) = some (mkClient j) := by
  induction n with
  | zero => omega
  | succ k ih =>
    rw [bigClients_succ]
    by_cases hjk : j ≤ k
    · exact mapGet_append_left _ (ih hjk)
    · have hj : j = k + 1 := by omega
      subst hj
      rw [mapGet_append_right _ (mapGet_bigClients_none (by omega))]
      simp [mapGet]

theorem bigHub_rooms_elim {n : Nat} {k : JStr} {ms : List JStr}
    (h : mapGet (bigHub n).rooms k = some ms) :
    k = dKey ∧ ms = bigMembers n ∧ n ≠ 0 := by
  unfold bigHub at h
  dsimp only at h
  by_cases hn : n = 0
  · rw [if_pos hn] at h
    simp [mapGet] at h
  · rw [if_neg hn] at h
    unfold mapGet at h
    by_cases hk : dKey = k
    · rw [if_pos hk] at h
      injection h with h'
      exact ⟨hk.symm, h'.symm, hn⟩
    · rw [if_neg hk] at h
      cases h

theorem bigHub_rooms_getD (n : Nat) :
    (mapGet (bigHub n).rooms dKey).getD [] = bigMembers n := by
  unfold bigHub
  dsimp only
  by_cases hn : n = 0
  · subst hn
    rfl
  · rw [if_neg hn]
    simp [mapGet]

theorem bigHub_clients (n : Nat) : (bigHub n).clients = bigClients n := rfl

theorem accept_bigHub {n j : Nat} (hj : n < j) :
    acceptClient (bigHub n) (uid j) = bigHubA n j := by
  unfold acceptClient bigHubA
  rw [show (bigHub n).clients = bigClients n from rfl,
    mapSet_append_fresh _ (mapGet_bigClients_none hj)]
  rfl

theorem mem_bigUsed {n j : Nat} {x : JStr} (hnj : n < j) :
    x ∈ roomUsedNames (bigHubA n j) dKey (some (uid j)) ↔
      ∃ i, 1 ≤ i ∧ i ≤ n ∧ x = lpname i := by
  by_cases hn : n = 0
  · subst hn
    rw [roomUsedNames_none (show mapGet (bigHubA 0 j).rooms dKey = none from rfl)]
    constructor
    · intro hx
      simp at hx
    · rintro ⟨i, h1, h2, _⟩
      omega
  · have hms : mapGet (bigHubA n j).rooms dKey = some (bigMembers n) := by
      show mapGet (bigHub n).rooms dKey = some (bigMembers n)
      unfold bigHub
      dsimp only
      rw [if_neg hn]
      simp [mapGet]
    unfold roomUsedNames
    rw [hms]
    dsimp only
    rw [mem_collectUsed]
    constructor
    · rintro (hx | ⟨m, hm, hnig, c, mm, hc, hmm, hnm, rfl⟩)
      · simp at hx
      · obtain ⟨i, h1, h2, rfl⟩ := mem_bigMembers.mp hm
        have hcl : mapGet (bigHubA n j).clients (uid i) = some (mkClient i) := by
          show mapGet (bigClients n ++ [(uid j, blankClient j)]) (uid i) = _
          exact mapGet_append_left _ (mapGet_bigClients h1 h2)
        rw [hcl] at hc
        injection hc with hc'
        subst hc'
        have hmk : (mkClient i).meta = some (mkMeta i) := rfl
        rw [hmk] at hmm
        injection hmm with hmm'
        subst hmm'
        exact ⟨i, h1, h2, jsToLower_pname i⟩
    · rintro ⟨i, h1, h2, rfl⟩
      refine Or.inr ⟨uid i, mem_bigMembers.mpr ⟨i, h1, h2, rfl⟩, ?_,
        mkClient i, mkMeta i, ?_, rfl, ?_, ?_⟩
      · rintro ⟨_, he⟩
        exact absurd (uid_inj (Option.some.inj he)) (by omega)
      · show mapGet (bigClients n ++ [(uid j, blankClient j)]) (uid i) = _
        exact mapGet_append_left _ (mapGet_bigClients h1 h2)
      · exact pname_ne_nil i
      · exact jsToLower_pname i

theorem lowName_bigHubA {n j i : Nat} (h1 : 1 ≤ i) (h2 : i ≤ n) :
    lowName (bigHubA n j) (uid i) = some (lpname i) := by
  unfold lowName
  rw [show (bigHubA n j).clients = bigClients n ++ [(uid j, blankClient j)]
      from rfl,
    mapGet_append_left _ (mapGet_bigClients h1 h2)]
  show some (jsToLower (pname i)) = some (lpname i)
  rw [jsToLower_pname]

theorem namesUnique_bigHubA (n j : Nat) : NamesUnique (bigHubA n j) := by
  intro k ms hms
  have hms' : mapGet (bigHub n).rooms k = some ms := hms
  obtain ⟨hk, hmse, hn0⟩ := bigHub_rooms_elim hms'
  subst hmse
  unfold bigMembers
  rw [List.pairwise_map]
  refine (seqTo_pairwise_lt n).imp_of_mem ?_
  intro a b ha hb hlt x hax
  obtain ⟨ha1, ha2⟩ := mem_seqTo.mp ha
  obtain ⟨hb1, hb2⟩ := mem_seqTo.mp hb
  rw [lowName_bigHubA ha1 ha2] at hax
  rw [lowName_bigHubA hb1 hb2]
  injection hax with hax'
  subst hax'
  intro hcon
  injection hcon with hcon'
  exact absurd (lpname_inj hb1 ha1 hcon') (by omega)

theorem normalizeMeta_nameOnly (s : JStr) :
    normalizeMeta (.vobj [("name".data, .vstr s)]) =
      ⟨normalizeDisplayNameStr s, "lobby".data⟩ := rfl

theorem bigJoin_meta {n j : Nat} (hnj : n < j) (hj5 : j < 100000)
    (rand : Nat → Nat) (now : Nat) :
    joinedMeta (bigHubA n j) rand now (blankClient j) dApp dRoom
      (.vobj [("name".data, .vstr (pname j))]) = mkMeta j := by
  unfold joinedMeta
  rw [normalizeMeta_nameOnly]
  dsimp only
  unfold uniqueName
  rw [normalizeDisplayNameStr_pname hj5, normalizeDisplayNameStr_pname hj5]
  have hfresh : jsToLower (pname j) ∉
      roomUsedNames (bigHubA n j) dKey (some (uid j)) := by
    rw [jsToLower_pname]
    intro hmem
    obtain ⟨i, h1, h2, heq⟩ := (mem_bigUsed hnj).mp hmem
    exact absurd (lpname_inj (by omega) h1 heq) (by omega)
  show Meta.mk (uniqueNameFrom rand now (pname j)
    (roomUsedNames (bigHubA n j) dKey (some (uid j)))) "lobby".data = mkMeta j
  rw [uniqueNameFrom_fresh hfresh]
  rfl

theorem bigStep_join {n : Nat} (hn : n + 1 ≤ 9999) :
    (handleMessage 10000 (fun _ => 100) 0 (bigHubA n (n + 1)) (uid (n + 1))
      (some (joinReq (pname (n + 1))))).1 = bigHub (n + 1) := by
  have hlook : mapGet (bigHubA n (n + 1)).clients (uid (n + 1)) =
      some (blankClient (n + 1)) := by
    show mapGet (bigClients n ++ [(uid (n + 1), blankClient (n + 1))])
      (uid (n + 1)) = _
    rw [mapGet_append_right _ (mapGet_bigClients_none (by omega))]
    simp [mapGet]
  have hunj : ¬ (otruthy (blankClient (n + 1)).app = true ∧
      otruthy (blankClient (n + 1)).room = true) := by
    rintro ⟨ha, _⟩
    simp [blankClient, otruthy] at ha
  rw [show joinReq (pname (n + 1)) = joinMsg (.vstr dApp) (.vstr dRoom)
      (.vobj [("name".data, .vstr (pname (n + 1)))]) from rfl]
  rw [handleMessage_unjoined hlook hunj]
  have hmem0 : bigMembers n = (mapGet (bigHubA n (n + 1)).rooms dKey).getD [] :=
    (bigHub_rooms_getD n).symm
  have hcap0 : (bigMembers n).length < 10000 := by
    rw [bigMembers_length]
    omega
  have hnm0 : mkMeta (n + 1) = joinedMeta (bigHubA n (n + 1)) (fun _ => 100) 0
      (blankClient (n + 1)) dApp dRoom
      (.vobj [("name".data, .vstr (pname (n + 1)))]) :=
    (bigJoin_meta (by omega) (by omega) _ _).symm
  have hstep := handleFirstJoin_success 10000 (fun _ => 100) 0
    (bigHubA n (n + 1)) (uid (n + 1)) (blankClient (n + 1)) dApp dRoom
    (.vobj [("name".data, .vstr (pname (n + 1)))]) dKey (bigMembers n)
    (mkMeta (n + 1)) (mkClient (n + 1)) (by decide) (by decide) rfl hmem0
    hcap0 hnm0 rfl
  rw [hstep]
  have hnotmem : uid (n + 1) ∉ bigMembers n := by
    intro hmem
    obtain ⟨i, h1, h2, heq⟩ := mem_bigMembers.mp hmem
    exact absurd (uid_inj heq) (by omega)
  have hrooms2 : mapSet (bigHubA n (n + 1)).rooms dKey
      (setAdd (bigMembers n) (uid (n + 1))) = [(dKey, bigMembers (n + 1))] := by
    rw [setAdd_eq_append hnotmem, ← bigMembers_succ]
    show mapSet (bigHub n).rooms dKey (bigMembers (n + 1)) = _
    unfold bigHub
    dsimp only
    by_cases hn0 : n = 0
    · rw [if_pos hn0]
      rfl
    · rw [if_neg hn0]
      simp [mapSet]
  have hclients2 : mapSet (bigHubA n (n + 1)).clients (uid (n + 1))
      (mkClient (n + 1)) = bigClients (n + 1) := by
    show mapSet (bigClients n ++ [(uid (n + 1), blankClient (n + 1))])
      (uid (n + 1)) (mkClient (n + 1)) = _
    rw [mapSet_replace_last _ _ (mapGet_bigClients_none (by omega)),
      ← bigClients_succ]
  show Hub.mk (mapSet (bigHubA n (n + 1)).rooms dKey
      (setAdd (bigMembers n) (uid (n + 1))))
    (mapSet (bigHubA n (n + 1)).clients (uid (n + 1)) (mkClient (n + 1))) =
      bigHub (n + 1)
  rw [hrooms2, hclients2]
  unfold bigHub
  rw [if_neg (Nat.succ_ne_zero n)]

theorem bigHub_reachable : ∀ n, n ≤ 9999 → Reachable 10000 (bigHub n) := by
  intro n
  induction n with
  | zero =>
    intro _
    exact Reachable.init
  | succ k ih =>
    intro hk
    have h1 : Reachable 10000 (bigHub k) := ih (by omega)
    have hmem : ∀ k' ms, mapGet (bigHub k).rooms k' = some ms →
        uid (k + 1) ∉ ms := by
      intro k' ms hms hmemx
      obtain ⟨_, hmse, _⟩ := bigHub_rooms_elim hms
      subst hmse
      obtain ⟨i, hi1, hi2, heq⟩ := mem_bigMembers.mp hmemx
      exact absurd (uid_inj heq) (by omega)
    have h2 : Reachable 10000 (bigHubA k (k + 1)) := by
      rw [← accept_bigHub (show k < k + 1 by omega)]
      exact Reachable.step h1 (Step.accept _ _ (uid_ne_nil _)
        (mapGet_bigClients_none (by omega)) hmem)
    have h3 : Reachable 10000 ((handleMessage 10000 (fun _ => 100) 0
        (bigHubA k (k + 1)) (uid (k + 1))
        (some (joinReq (pname (k + 1))))).1) :=
      Reachable.step h2 (Step.message _ _ _ _ _
        (fun i => ⟨le_refl 100, by show (100 : Nat) ≤ 999; norm_num⟩))
    rw [bigStep_join hk] at h3
    exact h3

theorem bigHubA_final_reachable : Reachable 10000 (bigHubA 9999 10000) := by
  have h1 : Reachable 10000 (bigHub 9999) := bigHub_reachable 9999 (Nat.le_refl _)
  have hmem : ∀ k' ms, mapGet (bigHub 9999).rooms k' = some ms →
      uid 10000 ∉ ms := by
    intro k' ms hms hmemx
    obtain ⟨_, hmse, _⟩ := bigHub_rooms_elim hms
    rw [hmse] at hmemx
    obtain ⟨i, hi1, hi2, heq⟩ := mem_bigMembers.mp hmemx
    exact absurd (uid_inj heq) (by omega)
  have hfresh : mapGet (bigHub 9999).clients (uid 10000) = none := by
    rw [bigHub_clients]
    exact @mapGet_bigClients_none 9999 10000 (by norm_num)
  rw [← accept_bigHub (show (9999 : Nat) < 10000 by norm_num)]
  exact Reachable.step h1 (Step.accept _ _ (uid_ne_nil _) hfresh hmem)

/-- The join message the 10000-th connection sends: it requests the plain
base name `Player`. -/
def attackJoin : JsVal := joinReq pbase

/-- The client record the timestamp fallback of `uniqueName` produces for the
10000-th connection at `Date.now() = 483`. -/
def attClient : Client :=
  ⟨uid 10000, some dApp, some dRoom, some ⟨pbase ++ natDec 483, "lobby".data⟩⟩

/-- The hub after that join: member 483 (`Player483`) and the newcomer
(`Player483` again) now share a lower-cased display name. -/
def badHub : Hub :=
  ⟨[(dKey, bigMembers 9999 ++ [uid 10000])],
   bigClients 9999 ++ [(uid 10000, attClient)]⟩

theorem attack_meta :
    joinedMeta (bigHubA 9999 10000) (fun _ => 100) 483 (blankClient 10000)
      dApp dRoom (.vobj [("name".data, .vstr pbase)]) =
      ⟨pbase ++ natDec 483, "lobby".data⟩ := by
  unfold joinedMeta
  rw [normalizeMeta_nameOnly]
  dsimp only
  unfold uniqueName
  have hpb : normalizeDisplayNameStr pbase = pbase :=
    normalizeDisplayNameStr_eq_self pbase_nospace (by decide) (by decide)
  rw [hpb, hpb]
  have hn : (9999 : Nat) < 10000 := by norm_num
  have htaken : jsToLower pbase ∈
      roomUsedNames (bigHubA 9999 10000) dKey (some (uid 10000)) := by
    rw [jsToLower_pbase]
    exact (mem_bigUsed hn).mpr ⟨1, by norm_num, by norm_num, rfl⟩
  have hcand : ∀ k, 2 ≤ k → k < 10000 → jsToLower (pbase ++ natDec k) ∈
      roomUsedNames (bigHubA 9999 10000) dKey (some (uid 10000)) := by
    intro k h2 h10
    rw [jsToLower_append, jsToLower_pbase, jsToLower_natDec]
    refine (mem_bigUsed hn).mpr ⟨k, by omega, by omega, ?_⟩
    unfold lpname
    rw [if_neg (by omega)]
  have hrand_none : tryRandomFrom (fun _ => 100) pbase
      (roomUsedNames (bigHubA 9999 10000) dKey (some (uid 10000))) 500 0 =
      none := by
    apply tryRandomFrom_eq_none
    intro j hj1 hj2
    show jsToLower (pbase ++ natDec 100) ∈ _
    exact hcand 100 (by norm_num) (by norm_num)
  have hseq_none : trySeqFrom pbase
      (roomUsedNames (bigHubA 9999 10000) dKey (some (uid 10000))) 2 = none :=
    trySeqFrom_eq_none (fun k h2 h10 => hcand k h2 h10)
  show Meta.mk (uniqueNameFrom (fun _ => 100) 483 pbase
    (roomUsedNames (bigHubA 9999 10000) dKey (some (uid 10000))))
    "lobby".data = _
  rw [uniqueNameFrom_fallback htaken hrand_none hseq_none]

theorem badHub_eq :
    (handleMessage 10000 (fun _ => 100) 483 (bigHubA 9999 10000) (uid 10000)
      (some attackJoin)).1 = badHub := by
  have hlook : mapGet (bigHubA 9999 10000).clients (uid 10000) =
      some (blankClient 10000) := by
    show mapGet (bigClients 9999 ++ [(uid 10000, blankClient 10000)])
      (uid 10000) = _
    rw [mapGet_append_right _ (mapGet_bigClients_none (by norm_num))]
    simp [mapGet]
  have hunj : ¬ (otruthy (blankClient 10000).app = true ∧
      otruthy (blankClient 10000).room = true) := by
    rintro ⟨ha, _⟩
    simp [blankClient, otruthy] at ha
  rw [show attackJoin = joinMsg (.vstr dApp) (.vstr dRoom)
      (.vobj [("name".data, .vstr pbase)]) from rfl]
  rw [handleMessage_unjoined hlook hunj]
  have hmem0 : bigMembers 9999 =
      (mapGet (bigHubA 9999 10000).rooms dKey).getD [] :=
    (bigHub_rooms_getD 9999).symm
  have hcap0 : (bigMembers 9999).length < 10000 := by
    rw [bigMembers_length]
    norm_num
  have hstep := handleFirstJoin_success 10000 (fun _ => 100) 483
    (bigHubA 9999 10000) (uid 10000) (blankClient 10000) dApp dRoom
    (.vobj [("name".data, .vstr pbase)]) dKey (bigMembers 9999)
    ⟨pbase ++ natDec 483, "lobby".data⟩ attClient (by decide) (by decide) rfl
    hmem0 hcap0 attack_meta.symm rfl
  rw [hstep]
  have hnotmem : uid 10000 ∉ bigMembers 9999 := by
    intro hmem
    obtain ⟨i, h1, h2, heq⟩ := mem_bigMembers.mp hmem
    exact absurd (uid_inj heq) (by omega)
  have hrooms2 : mapSet (bigHubA 9999 10000).rooms dKey
      (setAdd (bigMembers 9999) (uid 10000)) =
      [(dKey, bigMembers 9999 ++ [uid 10000])] := by
    rw [setAdd_eq_append hnotmem]
    show mapSet (bigHub 9999).rooms dKey _ = _
    unfold bigHub
    dsimp only
    rw [if_neg (by norm_num)]
    simp [mapSet]
  have hclients2 : mapSet (bigHubA 9999 10000).clients (uid 10000) attClient =
      bigClients 9999 ++ [(uid 10000, attClient)] := by
    show mapSet (bigClients 9999 ++ [(uid 10000, blankClient 10000)])
      (uid 10000) attClient = _
    exact mapSet_replace_last _ _ (mapGet_bigClients_none (by norm_num))
  show Hub.mk (mapSet (bigHubA 9999 10000).rooms dKey
      (setAdd (bigMembers 9999) (uid 10000)))
    (mapSet (bigHubA 9999 10000).clients (uid 10000) attClient) = badHub
  rw [hrooms2, hclients2]
  rfl

theorem badHub_not_namesUnique : ¬ NamesUnique badHub := by
  intro hu
  have hms : mapGet badHub.rooms dKey =
      some (bigMembers 9999 ++ [uid 10000]) := by
    simp [badHub, mapGet]
  have hpw := hu dKey _ hms
  rw [List.pairwise_append] at hpw
  obtain ⟨_, _, hcross⟩ := hpw
  have h483 : uid 483 ∈ bigMembers 9999 :=
    mem_bigMembers.mpr ⟨483, by norm_num, by norm_num, rfl⟩
  have hR := hcross (uid 483) h483 (uid 10000) (List.mem_singleton_self _)
  have hlow483 : lowName badHub (uid 483) = some (lpbase ++ natDec 483) := by
    unfold lowName
    rw [show badHub.clients = bigClients 9999 ++ [(uid 10000, attClient)]
        from rfl,
      mapGet_append_left _ (mapGet_bigClients (by norm_num) (by norm_num))]
    show some (jsToLower (pname 483)) = _
    rw [jsToLower_pname]
    unfold lpname
    rw [if_neg (by norm_num)]
  have hlow10000 : lowName badHub (uid 10000) =
      some (lpbase ++ natDec 483) := by
    unfold lowName
    rw [show badHub.clients = bigClients 9999 ++ [(uid 10000, attClient)]
        from rfl,
      mapGet_append_right _ (mapGet_bigClients_none (by norm_num)),
      show mapGet [(uid 10000, attClient)] (uid 10000) = some attClient
        by simp [mapGet]]
    show some (jsToLower (pbase ++ natDec 483)) = _
    rw [jsToLower_append, jsToLower_pbase, jsToLower_natDec]
  exact hR _ hlow483 hlow10000

/-- C2, counterexample to the claim as stated: name uniqueness is not an
invariant of every reachable state under every configured maximum room size.
With `MAX_ROOM_SIZE = 10000`, the state in which connections `1, …, 9999`
joined room `demo/r1` as `Player`, `Player2`, …, `Player9999` and connection
10000 was just accepted is reachable and satisfies the invariant; yet the
delivered join message requesting the name `Player` is a step of the system
after which the invariant fails: the base name and all random
(`Player100`, with every `randomSuffix()` drawing 100) and sequential
(`Player2` … `Player9999`) candidates are taken, so `uniqueName` falls back
to the unchecked `Player${Date.now() % 100000}` — at `Date.now() = 483` the
newcomer is stored as `Player483`, colliding case-insensitively with member
483. -/
theorem C2_counterexample :
    Reachable 10000 (bigHubA 9999 10000) ∧
    NamesUnique (bigHubA 9999 10000) ∧
    Step 10000 (bigHubA 9999 10000)
      (handleMessage 10000 (fun _ => 100) 483 (bigHubA 9999 10000) (uid 10000)
        (some attackJoin)).1 ∧
    ¬ NamesUnique (handleMessage 10000 (fun _ => 100) 483 (bigHubA 9999 10000)
        (uid 10000) (some attackJoin)).1 := by
  refine ⟨bigHubA_final_reachable, namesUnique_bigHubA 9999 10000, ?_, ?_⟩
  · exact Step.message _ _ _ _ _
      (fun i => ⟨le_refl 100, by show (100 : Nat) ≤ 999; norm_num⟩)
  · rw [badHub_eq]
    exact badHub_not_namesUnique

/-- C2 (amended): within every room of every reachable hub state, display
names of distinct members differ under case-insensitive comparison — provided
the configured maximum room size is at most 9998, so that the sequential
suffixes `2 … 9999` always contain a fresh candidate and the unchecked
timestamp fallback of `uniqueName` is never reached. -/
theorem C2_names_unique {N : Nat} {h : Hub} (hN : N ≤ 9998)
    (hr : Reachable N h) : NamesUnique h :=
  reachable_namesUnique hN hr

/-- Witness for the amended C2 at the default room size 64: the state after
one connection accept is reachable and satisfies the invariant. -/
theorem C2_names_unique_witness :
    64 ≤ 9998 ∧ NamesUnique (acceptClient ⟨[], []⟩ ['A']) :=
  ⟨by norm_num, @C2_names_unique 64 (acceptClient ⟨[], []⟩ ['A'])
    (by norm_num)
    (Reachable.step Reachable.init (Step.accept ⟨[], []⟩ ['A']
      (by decide) rfl (by intro k ms hms; simp [mapGet] at hms)))⟩

end SignalHub
